import Mathlib

set_option maxRecDepth 10000

/-!
Verification of the K-AST term library (TypeScript sources under `src/`):
term model, substitution algebra, structural matching, boolean/ML predicate
manipulation, CTerm construction and anti-unification.

Modelling conventions, used consistently below:

* `KInner` is the tagged union of `src/kast/inner.ts` (`KToken`, `KVariable`,
  `KApply`, `KAs`, `KRewrite`, `KSequence`).  Because Lean 4.14 does not
  support recursion/`DecidableEq` derivation through nested `List`
  occurrences, child lists are represented by the mutually inductive
  `KList`; `KList.toList`/`KList.ofList` mediate with ordinary lists.
* The `KSequence` constructor of the source flattens nested sequences one
  level; the smart constructor `mkKSequence` models this.  Terms actually
  built by the library therefore satisfy `KInner.flatB` (no `KSequence`
  directly inside a `KSequence`'s item list); theorems assume it where the
  source guarantees it.
* JavaScript reference equality (`===`) between two term objects is modelled
  as structural equality (`==` on the inductive).  This matches the source
  whenever structurally equal subterms are shared references and is noted at
  each definition that uses it.
* Thrown JavaScript exceptions are modelled with `Except String`; a returned
  `null` (an expected match failure) is `Option.none`.  A `TypeError` raised
  by the runtime (see `topDownE`) is also an `Except.error`.
* Stack-based traversals (`bottomUp`) are modelled by an explicit work stack
  driven by fuel; the fuel bound `2 * sizeK t` is proved sufficient.
-/

/-- Models `KSort` (`src/kast/inner.ts`): a simple sort name. -/
structure KSort where
  name : String
deriving DecidableEq, Repr

/-- Models `KLabel` (`src/kast/inner.ts`): a symbol name with sort parameters. -/
structure KLabel where
  name : String
  params : List KSort
deriving DecidableEq, Repr

mutual
/-- Models the `KInner` tagged union of `src/kast/inner.ts`.  `kas` is the
`KAs` alias node, `krewrite` a rewrite node, `ksequence` a (raw) item list;
the source's flattening `KSequence` constructor is `mkKSequence` below. -/
inductive KInner where
  | ktoken (token : String) (sort : KSort) : KInner
  | kvariable (name : String) (sort : Option KSort) : KInner
  | kapply (label : KLabel) (args : KList) : KInner
  | kas (pat : KInner) (alias' : KInner) : KInner
  | krewrite (lhs : KInner) (rhs : KInner) : KInner
  | ksequence (items : KList) : KInner
deriving DecidableEq, Repr

/-- Child lists of `KInner` nodes (in the source, plain JS arrays). -/
inductive KList where
  | nil : KList
  | cons (head : KInner) (tail : KList) : KList
deriving DecidableEq, Repr
end

namespace KList

def toList : KList → List KInner
  | .nil => []
  | .cons h t => h :: toList t

def ofList : List KInner → KList
  | [] => .nil
  | h :: t => .cons h (ofList t)

def length : KList → Nat
  | .nil => 0
  | .cons _ t => 1 + length t

def append : KList → KList → KList
  | .nil, l => l
  | .cons h t, l => .cons h (append t l)

instance : Append KList := ⟨KList.append⟩

def get? : KList → Nat → Option KInner
  | .nil, _ => none
  | .cons h _, 0 => some h
  | .cons _ t, n + 1 => get? t n

/-- Models `array.slice(n)`. -/
def drop : Nat → KList → KList
  | 0, l => l
  | _ + 1, .nil => .nil
  | n + 1, .cons _ t => drop n t

def getLast? : KList → Option KInner
  | .nil => none
  | .cons h .nil => some h
  | .cons _ (.cons h t) => getLast? (.cons h t)

def mem (x : KInner) : KList → Prop
  | .nil => False
  | .cons h t => x = h ∨ mem x t

instance : Membership KInner KList := ⟨fun l x => KList.mem x l⟩

theorem toList_ofList : ∀ l : List KInner, toList (ofList l) = l
  | [] => rfl
  | h :: t => by simp [ofList, toList, toList_ofList t]

theorem ofList_toList : ∀ l : KList, ofList (toList l) = l
  | .nil => rfl
  | .cons h t => by simp [ofList, toList, ofList_toList t]

theorem toList_append : ∀ a b : KList, toList (a ++ b) = toList a ++ toList b
  | .nil, _ => rfl
  | .cons h t, b => by
      show toList (KList.append (.cons h t) b) = _
      simp [KList.append, toList]
      exact toList_append t b

theorem length_toList : ∀ l : KList, l.length = l.toList.length
  | .nil => rfl
  | .cons h t => by simp [length, toList, length_toList t]; omega

theorem mem_toList {x : KInner} : ∀ {l : KList}, x ∈ l ↔ x ∈ l.toList
  | .nil => by
      show KList.mem x .nil ↔ _
      simp [KList.mem, toList]
  | .cons h t => by
      show KList.mem x (.cons h t) ↔ _
      simp [KList.mem, toList]
      rw [show KList.mem x t = (x ∈ t) from rfl, mem_toList]

end KList

mutual
/-- Number of nodes in a term; the measure used for traversal fuel. -/
def sizeK : KInner → Nat
  | .ktoken _ _ => 1
  | .kvariable _ _ => 1
  | .kapply _ args => 1 + sizeKL args
  | .kas p a => 1 + sizeK p + sizeK a
  | .krewrite l r => 1 + sizeK l + sizeK r
  | .ksequence items => 1 + sizeKL items

def sizeKL : KList → Nat
  | .nil => 0
  | .cons h t => sizeK h + sizeKL t
end

mutual
theorem sizeK_pos : ∀ t : KInner, 0 < sizeK t
  | .ktoken _ _ => by simp [sizeK]
  | .kvariable _ _ => by simp [sizeK]
  | .kapply _ args => by simp [sizeK]
  | .kas p a => by simp [sizeK]
  | .krewrite l r => by simp [sizeK]
  | .ksequence items => by simp [sizeK]

theorem sizeKL_nonneg : ∀ l : KList, 0 ≤ sizeKL l
  | _ => Nat.zero_le _
end

/-- Models the child list exposed by each variant's `terms` getter. -/
def KInner.terms : KInner → KList
  | .ktoken _ _ => .nil
  | .kvariable _ _ => .nil
  | .kapply _ args => args
  | .kas p a => .cons p (.cons a .nil)
  | .krewrite l r => .cons l (.cons r .nil)
  | .ksequence items => items

/-- One level of `KSequence` flattening, as done by the source's `KSequence`
constructor: a `KSequence` item contributes its own items. -/
def flattenOnceL : KList → KList
  | .nil => .nil
  | .cons (.ksequence items) t => items ++ flattenOnceL t
  | .cons h t => .cons h (flattenOnceL t)

/-- Models `new KSequence(items)`: flattens nested sequences one level. -/
def mkKSequence (items : KList) : KInner :=
  .ksequence (flattenOnceL items)

/-- Models each variant's `letTerms` (rebuild from a replacement child list).
For `kas`/`krewrite` a list of the wrong length keeps the original children;
the source would fault there, and no traversal produces that case. -/
def KInner.letTerms : KInner → KList → KInner
  | .ktoken v s, _ => .ktoken v s
  | .kvariable n s, _ => .kvariable n s
  | .kapply l _, ts => .kapply l ts
  | .kas p a, ts =>
      match ts with
      | .cons p' (.cons a' .nil) => .kas p' a'
      | _ => .kas p a
  | .krewrite l r, ts =>
      match ts with
      | .cons l' (.cons r' .nil) => .krewrite l' r'
      | _ => .krewrite l r
  | .ksequence _, ts => mkKSequence ts

mutual
/-- Flatness: no `KSequence` occurs directly among a `KSequence`'s items.
Every term built through the source constructors satisfies this. -/
def KInner.flatB : KInner → Bool
  | .ktoken _ _ => true
  | .kvariable _ _ => true
  | .kapply _ args => KInner.flatBL args
  | .kas p a => KInner.flatB p && KInner.flatB a
  | .krewrite l r => KInner.flatB l && KInner.flatB r
  | .ksequence items => KInner.flatBL items && KInner.noSeqTop items

def KInner.flatBL : KList → Bool
  | .nil => true
  | .cons h t => KInner.flatB h && KInner.flatBL t

def KInner.noSeqTop : KList → Bool
  | .nil => true
  | .cons (.ksequence _) _ => false
  | .cons _ t => KInner.noSeqTop t
end

/-! ### The iterative `bottomUp` traversal (`src/kast/inner.ts`, `bottomUp`)

The source drives an explicit work stack of `(term, transformed-children)`
frames: when every child of the top frame has been transformed, the frame is
popped, the node is rebuilt with `letTerms`, transformed with `f`, and the
result is appended to the parent frame's child list (or returned when the
stack empties); otherwise the next untransformed child is pushed.  The model
makes the loop total with fuel; `2 * sizeK t` is proved sufficient. -/

abbrev Frame := KInner × List KInner

def buRun (f : KInner → KInner) : Nat → List Frame → Option KInner
  | 0, _ => none
  | _ + 1, [] => none
  | fuel + 1, (t, done) :: rest =>
    if done.length = (KInner.terms t).length then
      let r := f (t.letTerms (KList.ofList done))
      match rest with
      | [] => some r
      | (p, pdone) :: rest' => buRun f fuel ((p, pdone ++ [r]) :: rest')
    else
      match (KInner.terms t).get? done.length with
      | some c => buRun f fuel ((c, []) :: (t, done) :: rest)
      | none => none

/-- Models `bottomUp(f, kinner)` of `src/kast/inner.ts` (the work-stack
implementation).  The `getD` default is never used: the fuel suffices. -/
def bottomUp (f : KInner → KInner) (t : KInner) : KInner :=
  (buRun f (2 * sizeK t) [(t, [])]).getD t

mutual
/-- The naive recursive bottom-up traversal: transform every child first,
rebuild the node, then apply `f`.  Spec-side reference for the claim that
the iterative `bottomUp` computes exactly this. -/
def bottomUpNaive (f : KInner → KInner) : KInner → KInner
  | .ktoken v s => f (.ktoken v s)
  | .kvariable n s => f (.kvariable n s)
  | .kapply l args => f (.kapply l (bottomUpNaiveL f args))
  | .kas p a => f (.kas (bottomUpNaive f p) (bottomUpNaive f a))
  | .krewrite l r => f (.krewrite (bottomUpNaive f l) (bottomUpNaive f r))
  | .ksequence items => f (mkKSequence (bottomUpNaiveL f items))

def bottomUpNaiveL (f : KInner → KInner) : KList → KList
  | .nil => .nil
  | .cons h t => .cons (bottomUpNaive f h) (bottomUpNaiveL f t)
end

mutual
/-- Exact iteration count of the work-stack loop for a subtree. -/
def costK : KInner → Nat
  | .ktoken _ _ => 1
  | .kvariable _ _ => 1
  | .kapply _ args => 1 + costKL args
  | .kas p a => 1 + (1 + costK p) + (1 + costK a)
  | .krewrite l r => 1 + (1 + costK l) + (1 + costK r)
  | .ksequence items => 1 + costKL items

def costKL : KList → Nat
  | .nil => 0
  | .cons h t => 1 + costK h + costKL t
end

mutual
theorem costK_le : ∀ t : KInner, costK t + 1 ≤ 2 * sizeK t
  | .ktoken _ _ => by simp [costK, sizeK]
  | .kvariable _ _ => by simp [costK, sizeK]
  | .kapply _ args => by
      have := costKL_le args
      simp [costK, sizeK]; omega
  | .kas p a => by
      have h1 := costK_le p; have h2 := costK_le a
      simp [costK, sizeK]; omega
  | .krewrite l r => by
      have h1 := costK_le l; have h2 := costK_le r
      simp [costK, sizeK]; omega
  | .ksequence items => by
      have := costKL_le items
      simp [costK, sizeK]; omega

theorem costKL_le : ∀ l : KList, costKL l ≤ 2 * sizeKL l
  | .nil => by simp [costKL, sizeKL]
  | .cons h t => by
      have h1 := costK_le h; have h2 := costKL_le t
      simp [costKL, sizeKL]; omega
end

/-- Loop cost of processing a list of children (push + subtree each). -/
def costList (l : List KInner) : Nat :=
  (l.map (fun c => 1 + costK c)).sum

theorem costList_nil : costList [] = 0 := rfl

theorem costList_cons (c : KInner) (l : List KInner) :
    costList (c :: l) = 1 + costK c + costList l := by
  simp [costList]; try omega

theorem costKL_toList : ∀ l : KList, costKL l = costList l.toList
  | .nil => by simp [costKL, costList, KList.toList]
  | .cons h t => by
      rw [show KList.toList (.cons h t) = h :: t.toList from rfl, costList_cons,
        ← costKL_toList t]
      simp [costKL]

theorem costK_eq_terms : ∀ t : KInner, costK t = 1 + costList (KInner.terms t).toList := by
  intro t
  cases t <;>
    simp [costK, KInner.terms, KList.toList, ← costKL_toList, costList_cons,
      costList_nil, costKL] <;>
    omega

theorem sizeK_le_of_memL : ∀ l : KList, ∀ c ∈ l.toList, sizeK c ≤ sizeKL l
  | .nil => by simp [KList.toList]
  | .cons h t => by
      intro c hc
      simp [KList.toList] at hc
      rcases hc with rfl | hc
      · simp [sizeKL]
      · have := sizeK_le_of_memL t c hc
        simp [sizeKL]; omega

theorem sizeK_child_lt {t c : KInner} (hc : c ∈ (KInner.terms t).toList) :
    sizeK c < sizeK t := by
  cases t <;> simp [KInner.terms, KList.toList] at hc
  case kapply l args =>
    have := sizeK_le_of_memL args c hc
    simp [sizeK]; omega
  case kas p a =>
    rcases hc with rfl | rfl <;> simp [sizeK] <;> omega
  case krewrite l r =>
    rcases hc with rfl | rfl <;> simp [sizeK] <;> omega
  case ksequence items =>
    have := sizeK_le_of_memL items c hc
    simp [sizeK]; omega

theorem KList.get?_toList : ∀ (l : KList) (n : Nat), l.get? n = l.toList.get? n
  | .nil, _ => by simp [KList.get?, KList.toList]
  | .cons h t, 0 => by simp [KList.get?, KList.toList]
  | .cons h t, n + 1 => by simp [KList.get?, KList.toList, KList.get?_toList t n]

/-- Continuation of the loop after a subtree has been fully processed. -/
def buCont (f : KInner → KInner) (k : Nat) (r : KInner) : List Frame → Option KInner
  | [] => some r
  | (p, pdone) :: rest => buRun f k ((p, pdone ++ [r]) :: rest)

theorem bottomUpNaiveL_eq_map (f : KInner → KInner) :
    ∀ l : KList, bottomUpNaiveL f l = KList.ofList (l.toList.map (bottomUpNaive f))
  | .nil => rfl
  | .cons h t => by
      simp [bottomUpNaiveL, KList.toList, KList.ofList, bottomUpNaiveL_eq_map f t]

theorem get?_append_mid (pre : List KInner) (c : KInner) (rem : List KInner) :
    (pre ++ c :: rem).get? pre.length = some c := by
  induction pre with
  | nil => rfl
  | cons h t ih => simpa using ih

theorem bottomUpNaive_unfold (f : KInner → KInner) (t : KInner) :
    bottomUpNaive f t =
      f (t.letTerms (KList.ofList ((KInner.terms t).toList.map (bottomUpNaive f)))) := by
  cases t <;>
    simp [bottomUpNaive, KInner.terms, KInner.letTerms, KList.toList, KList.ofList,
      bottomUpNaiveL_eq_map]

/-- `2 * sizeK t` fuel lets the work-stack loop compute the naive recursive
bottom-up traversal of `t` and continue with the remaining stack. -/
theorem buMain (f : KInner → KInner) :
    ∀ n, ∀ t : KInner, sizeK t ≤ n →
      ∀ (k : Nat) (tail : List Frame),
        buRun f (costK t + k) ((t, []) :: tail) = buCont f k (bottomUpNaive f t) tail := by
  intro n
  induction n with
  | zero =>
      intro t ht
      exact absurd ht (by have := sizeK_pos t; omega)
  | succ n ih =>
      intro t ht k tail
      have inner : ∀ rem : List KInner, (∀ c ∈ rem, sizeK c ≤ n) →
          ∀ (pre done : List KInner) (k : Nat) (tail : List Frame),
            (KInner.terms t).toList = pre ++ rem →
            done.length = pre.length →
            buRun f (costList rem + 1 + k) ((t, done) :: tail) =
              buCont f k (f (t.letTerms (KList.ofList (done ++ rem.map (bottomUpNaive f))))) tail := by
        intro rem
        induction rem with
        | nil =>
            intro _ pre done k tail hterms hlen
            have hl : done.length = (KInner.terms t).length := by
              rw [KList.length_toList, hterms]; simpa using hlen
            show buRun f (0 + 1 + k) ((t, done) :: tail) = _
            have h1 : 0 + 1 + k = k + 1 := by omega
            rw [h1]
            simp only [buRun, hl, if_pos rfl]
            cases tail with
            | nil => simp [buCont]
            | cons p rest => cases p with
              | mk pt pdone => simp [buCont]
        | cons c rem' ihrem =>
            intro hsz pre done k tail hterms hlen
            have hc : sizeK c ≤ n := hsz c (by simp)
            have hlt : done.length < (KInner.terms t).length := by
              rw [KList.length_toList, hterms]
              simp [hlen]
            have hget : (KInner.terms t).get? done.length = some c := by
              rw [KList.get?_toList, hterms, hlen]
              exact get?_append_mid pre c rem'
            have hfuel : costList (c :: rem') + 1 + k =
                (costK c + (costList rem' + 1 + k)) + 1 := by
              rw [costList_cons]; omega
            rw [hfuel]
            have hne : ¬ done.length = (KInner.terms t).length := by omega
            simp only [buRun, if_neg hne, hget]
            rw [show costK c + (costList rem' + 1 + k) =
              costK c + (costList rem' + 1 + k) from rfl]
            rw [ih c hc (costList rem' + 1 + k) ((t, done) :: tail)]
            show buRun f (costList rem' + 1 + k) ((t, done ++ [bottomUpNaive f c]) :: tail) = _
            rw [ihrem (fun x hx => hsz x (by simp [hx])) (pre ++ [c])
              (done ++ [bottomUpNaive f c]) k tail
              (by rw [hterms]; simp) (by simp [hlen])]
            simp
      have hk : costK t + k = costList (KInner.terms t).toList + 1 + k := by
        rw [costK_eq_terms]; omega
      rw [hk, inner (KInner.terms t).toList
        (fun c hc => by have := sizeK_child_lt (t := t) hc; omega)
        [] [] k tail (by simp) (by simp)]
      simp only [List.nil_append]
      rw [bottomUpNaive_unfold f t]

/-- The exported iterative `bottomUp` computes the naive recursion. -/
theorem bottomUp_eq (f : KInner → KInner) (t : KInner) :
    bottomUp f t = bottomUpNaive f t := by
  unfold bottomUp
  have hle : costK t ≤ 2 * sizeK t := by have := costK_le t; omega
  obtain ⟨k, hk⟩ := Nat.exists_eq_add_of_le hle
  rw [hk, buMain f (sizeK t) t le_rfl k []]
  rfl

/-! ### Substitutions (`src/kast/inner.ts`, class `Subst`)

A `Subst` is an insertion-ordered map from variable name to term (a JS `Map`
in the source), modelled as an association list with unique keys. -/

abbrev Subst := List (String × KInner)

/-- Models `Map.get` on the substitution. -/
def Subst.get (s : Subst) (n : String) : Option KInner :=
  (s.find? (fun kv => kv.1 = n)).map (·.2)

/-- Models the private `Subst.termsEqual` used by `union` for conflict
detection.  For two `KVariable`s the source compares name and sort name.
For EVERY other pair the source evaluates
`JSON.stringify(t1.toDict()) === JSON.stringify(t2.toDict())`; `toDict`
returns a JS `Map`, and `JSON.stringify` of a `Map` is always the two-char
string of an empty object, so that comparison is `true` regardless of the
terms.  The model reproduces this faithfully: conflict detection fires only
when both stored values are variables. -/
def termsEqual : KInner → KInner → Bool
  | .kvariable n1 s1, .kvariable n2 s2 =>
      n1 = n2 &&
        match s1, s2 with
        | none, none => true
        | some a, some b => a.name = b.name
        | _, _ => false
  | _, _ => true

/-- Models `Subst.union`: entries of `this` first, then entries of `other`;
a key present in both keeps `this`'s value if `termsEqual` accepts the pair
and fails (null) otherwise. -/
def Subst.union (a b : Subst) : Option Subst :=
  b.foldl
    (fun acc kv =>
      match acc with
      | none => none
      | some r =>
        match Subst.get r kv.1 with
        | some ex => if termsEqual ex kv.2 then some r else none
        | none => some (r ++ [kv]))
    (some a)

/-- One step of `combineMatches`' fold: union the accumulated substitution
with the next child result, propagating failure. -/
def cmStep : Option Subst → Option Subst → Option Subst
  | some r, some s => Subst.union r s
  | _, _ => none

/-- Models `KInner.combineMatches`: fold `union` over the child results,
failing if any child failed or any union failed. -/
def combineMatches (ss : List (Option Subst)) : Option Subst :=
  ss.foldl cmStep (some [])

/-- The per-node replacement of `Subst.apply`: a bound variable becomes its
value, any other node is unchanged. -/
def substReplace (s : Subst) (t : KInner) : KInner :=
  match t with
  | .kvariable n _ =>
      match Subst.get s n with
      | some v => v
      | none => t
  | _ => t

/-- Models `Subst.apply`: bottom-up replacement of bound variables. -/
def Subst.apply (s : Subst) (t : KInner) : KInner :=
  bottomUp (substReplace s) t

theorem Subst.apply_eq (s : Subst) (t : KInner) :
    Subst.apply s t = bottomUpNaive (substReplace s) t :=
  bottomUp_eq _ _

/-- Reuse test of the variadic sequence-tail rule: does one of the first `k`
items of the pattern equal a `KVariable` with the tail variable's name. -/
def seqVarReuse : KList → Nat → String → Bool
  | _, 0, _ => false
  | .nil, _ + 1, _ => false
  | .cons (.kvariable n _) t, i + 1, vn => n = vn || seqVarReuse t i vn
  | .cons _ t, i + 1, vn => seqVarReuse t i vn

mutual
/-- Models `KInner.match` (pattern-side dispatch): token vs token compares
only the literal value; a pattern variable binds unconditionally; application
vs application compares label NAME and arity then combines child matches;
`KAs` throws; rewrite vs rewrite unions both sides; sequence vs sequence is
pointwise at equal arity, with the variadic-tail rule when the pattern is
shorter.  `Except.error` models a thrown exception, `Option.none` a returned
`null`. -/
def matchK : KInner → KInner → Except String (Option Subst)
  | .ktoken v _, t =>
      match t with
      | .ktoken v' _ => if v' = v then .ok (some []) else .ok none
      | _ => .ok none
  | .kvariable n _, t => .ok (some [(n, t)])
  | .kapply l args, t =>
      match t with
      | .kapply l' args' =>
          if l'.name = l.name && args'.length = args.length then do
            let ms ← matchKL args args'
            pure (combineMatches ms)
          else .ok none
      | _ => .ok none
  | .kas _ _, _ => .error "KAs does not support pattern matching"
  | .krewrite pl pr, t =>
      match t with
      | .krewrite tl tr => do
          let s1 ← matchK pl tl
          let s2 ← matchK pr tr
          match s1, s2 with
          | some a, some b => pure (Subst.union a b)
          | _, _ => pure none
      | _ => .ok none
  | .ksequence items, t =>
      match t with
      | .ksequence items' =>
          if items'.length = items.length then do
            let ms ← matchKL items items'
            pure (combineMatches ms)
          else
            if 0 < items.length && items.length < items'.length then
              match items.getLast? with
              | some (.kvariable vn _) =>
                  if seqVarReuse items (items.length - 1) vn then .ok none
                  else
                    matchSeqLoop items items' (items.length - 1)
                      (some [(vn, mkKSequence (KList.drop (items.length - 1) items'))])
              | _ => .ok none
            else .ok none
      | _ => .ok none

/-- Pointwise matching of equal-length child lists (`args.map` with index
access in the source; the `nil` fallbacks are unreachable under the arity
guard). -/
def matchKL : KList → KList → Except String (List (Option Subst))
  | .nil, _ => .ok []
  | .cons _ _, .nil => .ok []
  | .cons p ps, .cons q qs => do
      let m ← matchK p q
      let ms ← matchKL ps qs
      pure (m :: ms)

/-- The variadic-tail loop of `KSequence.match`: match the first
`commonLength` items one at a time, merging into the accumulated
substitution, stopping with `null` as soon as a merge fails. -/
def matchSeqLoop : KList → KList → Nat → Option Subst → Except String (Option Subst)
  | _, _, 0, acc => .ok acc
  | .nil, _, _ + 1, acc => .ok acc
  | .cons _ _, .nil, _ + 1, acc => .ok acc
  | .cons p ps, .cons q qs, i + 1, acc => do
      let m ← matchK p q
      match combineMatches [acc, m] with
      | none => .ok none
      | some s => matchSeqLoop ps qs i (some s)
end

/-! ### Prelude constants and builders
(`src/kast/prelude/k.ts`, `src/kast/prelude/kbool.ts`, `src/kast/prelude/ml.ts`) -/

def GENERATED_TOP_CELL : KSort := ⟨"GeneratedTopCell"⟩

/-- The sort `K` of `prelude/k.ts`. -/
def K_SORT : KSort := ⟨"K"⟩

def BOOL : KSort := ⟨"Bool"⟩

def INT : KSort := ⟨"Int"⟩

/-- Models `TRUE` of `prelude/kbool.ts`. -/
def TRUE : KInner := .ktoken "true" BOOL

/-- Models `FALSE` of `prelude/kbool.ts`. -/
def FALSE : KInner := .ktoken "false" BOOL

/-- Models `intToken` of `prelude/kint.ts`. -/
def intToken (n : Nat) : KInner := .ktoken (toString n) INT

/-- Convenience: apply a label to a list of arguments (`KLabel.apply`). -/
def KLabel.apply (l : KLabel) (args : List KInner) : KInner :=
  .kapply l (KList.ofList args)

/-- The unit test inside `buildAssoc` (`src/kast/inner.ts`): the element and
the unit are both zero-arity applications with the same label name. -/
def isUnitTerm (unit term : KInner) : Bool :=
  match term, unit with
  | .kapply tl targs, .kapply ul uargs =>
      tl.name = ul.name && targs.length = uargs.length && targs.length = 0
  | _, _ => false

/-- Models `buildAssoc`: right-associate `ts` under `label`, skipping unit
elements, returning the unit for an empty (or all-unit) list.  The source
iterates the reversed array accumulating the right spine. -/
def buildAssoc (unit : KInner) (label : KLabel) (ts : List KInner) : KInner :=
  let folded := ts.reverse.foldl
    (fun (acc : Option KInner) (term : KInner) =>
      if isUnitTerm unit term then acc
      else
        match acc with
        | none => some term
        | some r => some (.kapply label (.cons term (.cons r .nil))))
    none
  match folded with
  | some r => r
  | none => unit

mutual
/-- Models `flattenLabel` (`src/kast/inner.ts`): repeatedly un-nest
applications of `label`, collecting non-matching subterms left to right.
The source's explicit worklist visits exactly this depth-first order. -/
def flattenLabel (label : String) : KInner → List KInner
  | .kapply l args =>
      if l.name = label then flattenLabelL label args
      else [.kapply l args]
  | t => [t]

def flattenLabelL (label : String) : KList → List KInner
  | .nil => []
  | .cons h t => flattenLabel label h ++ flattenLabelL label t
end

/-- The strong `#Top` test (`_isTop` of `prelude/ml.ts`). -/
def isTopStrong (t : KInner) : Bool :=
  match t with
  | .kapply l _ => l.name = "#Top"
  | _ => false

/-- The strong `#Bottom` test (`_isBottom` of `prelude/ml.ts`). -/
def isBottomStrong (t : KInner) : Bool :=
  match t with
  | .kapply l _ => l.name = "#Bottom"
  | _ => false

/-- Fuel-driven body of the weak `isTop` of `prelude/ml.ts`: a term is weakly
top if it is a `#Top` application, or every conjunct of its `#And`-flattening
is; a single-element flattening falls back to the strong test.  The fuel
`sizeK t` passed by `isTopW` is sufficient (flattening an `#And` yields
strictly smaller terms, and other terms flatten to themselves). -/
def isTopWF : Nat → KInner → Bool
  | 0, t => isTopStrong t
  | fuel + 1, t =>
      if isTopStrong t then true
      else
        match flattenLabel "#And" t with
        | [x] => isTopStrong x
        | flat => flat.all (isTopWF fuel)

/-- Models `isTop(term, {weak: true})`. -/
def isTopW (t : KInner) : Bool := isTopWF (sizeK t) t

/-- Fuel-driven body of the weak `isBottom` of `prelude/ml.ts`. -/
def isBottomWF : Nat → KInner → Bool
  | 0, t => isBottomStrong t
  | fuel + 1, t =>
      if isBottomStrong t then true
      else
        match flattenLabel "#And" t with
        | [x] => isBottomStrong x
        | flat => flat.any (isBottomWF fuel)

/-- Models `isBottom(term, {weak: true})`. -/
def isBottomW (t : KInner) : Bool := isBottomWF (sizeK t) t

/-- Models `mlTop(sort)`. -/
def mlTop (sort : KSort := GENERATED_TOP_CELL) : KInner :=
  .kapply ⟨"#Top", [sort]⟩ .nil

/-- Models `mlBottom(sort)`. -/
def mlBottom (sort : KSort := GENERATED_TOP_CELL) : KInner :=
  .kapply ⟨"#Bottom", [sort]⟩ .nil

/-- Models `mlEquals(term1, term2, argSort, sort)`. -/
def mlEquals (t1 t2 : KInner) (argSort : KSort := K_SORT)
    (sort : KSort := GENERATED_TOP_CELL) : KInner :=
  .kapply ⟨"#Equals", [argSort, sort]⟩ (.cons t1 (.cons t2 .nil))

/-- Models `mlEqualsTrue(term, sort)`. -/
def mlEqualsTrue (t : KInner) (sort : KSort := GENERATED_TOP_CELL) : KInner :=
  mlEquals TRUE t BOOL sort

/-- Models `mlAnd(conjuncts, sort)`: drop strong-top conjuncts, then
right-associate under the sorted `#And` label with `mlTop sort` as unit. -/
def mlAnd (conjuncts : List KInner) (sort : KSort := GENERATED_TOP_CELL) : KInner :=
  buildAssoc (mlTop sort) ⟨"#And", [sort]⟩ (conjuncts.filter (fun x => !isTopStrong x))

/-- Models `mlOr(disjuncts, sort)`. -/
def mlOr (disjuncts : List KInner) (sort : KSort := GENERATED_TOP_CELL) : KInner :=
  buildAssoc (mlBottom sort) ⟨"#Or", [sort]⟩ (disjuncts.filter (fun x => !isBottomStrong x))

/-- Models `mlImplies(antecedent, consequent, sort)`. -/
def mlImplies (a c : KInner) (sort : KSort := GENERATED_TOP_CELL) : KInner :=
  .kapply ⟨"#Implies", [sort]⟩ (.cons a (.cons c .nil))

/-- Models `unique` of `src/utils.ts`.  The source deduplicates through a JS
`Set`, i.e. by object identity; per the file's modelling convention this is
structural deduplication keeping first occurrences (exact for shared
references to equal terms). -/
def uniqueGo (seen : List KInner) : List KInner → List KInner
  | [] => []
  | h :: t => if h ∈ seen then uniqueGo seen t else h :: uniqueGo (h :: seen) t

def uniqueL (l : List KInner) : List KInner := uniqueGo [] l

/-- Models `notBool`. -/
def notBool (t : KInner) : KInner := .kapply ⟨"notBool_", []⟩ (.cons t .nil)

/-- Models `andBool`: right-associated `_andBool_` over the deduplicated
items with unit `TRUE` (the unit test never fires: `TRUE` is a token). -/
def andBool (items : List KInner) : KInner :=
  buildAssoc TRUE ⟨"_andBool_", []⟩ (uniqueL items)

/-- Models `orBool`. -/
def orBool (items : List KInner) : KInner :=
  buildAssoc FALSE ⟨"_orBool_", []⟩ (uniqueL items)

/-- Models `impliesBool`. -/
def impliesBool (a c : KInner) : KInner :=
  .kapply ⟨"_impliesBool_", []⟩ (.cons a (.cons c .nil))

/-! ### `simplifyBool` (`src/kast/manip.ts`) -/

/-- Models `KRewrite.applyTop`: match the left-hand side against the node,
and on success apply the resulting substitution to the right-hand side.  A
thrown match error (a `KAs` inside the pattern) cannot occur for the rule
patterns used by `simplifyBool`; it is modelled as leaving the node
unchanged. -/
def applyTop (lhs rhs t : KInner) : KInner :=
  match matchK lhs t with
  | .ok (some s) => Subst.apply s rhs
  | _ => t

/-- Models `KRewrite.apply`: apply the rewrite at every node, bottom-up. -/
def rewriteApply (lhs rhs t : KInner) : KInner :=
  bottomUp (applyTop lhs rhs) t

/-- Shorthand for binary boolean-equality applications in the rule table. -/
def eqKApp (a b : KInner) : KInner := KLabel.apply ⟨"_==K_", []⟩ [a, b]

def neqKApp (a b : KInner) : KInner := KLabel.apply ⟨"_=/=K_", []⟩ [a, b]

def eqIntApp (a b : KInner) : KInner := KLabel.apply ⟨"_==Int_", []⟩ [a, b]

def neqIntApp (a b : KInner) : KInner := KLabel.apply ⟨"_=/=Int_", []⟩ [a, b]

/-- The fixed rule table of `simplifyBool` (`src/kast/manip.ts`), in source
order.  Note: it contains no double-negation rule. -/
def simplifyRules : List (KInner × KInner) :=
  let vLHS : KInner := .kvariable "#LHS" none
  let vRHS : KInner := .kvariable "#RHS" none
  let v1 : KInner := .kvariable "#V1" none
  let v2 : KInner := .kvariable "#V2" none
  let vREST : KInner := .kvariable "#REST" none
  [ (eqKApp vLHS TRUE, vLHS),
    (eqKApp TRUE vRHS, vRHS),
    (eqKApp vLHS FALSE, notBool vLHS),
    (eqKApp FALSE vRHS, notBool vRHS),
    (notBool FALSE, TRUE),
    (notBool TRUE, FALSE),
    (notBool (eqKApp v1 v2), neqKApp v1 v2),
    (notBool (neqKApp v1 v2), eqKApp v1 v2),
    (notBool (eqIntApp v1 v2), neqIntApp v1 v2),
    (notBool (neqIntApp v1 v2), eqIntApp v1 v2),
    (andBool [TRUE, vREST], vREST),
    (andBool [vREST, TRUE], vREST),
    (andBool [FALSE, vREST], FALSE),
    (andBool [vREST, FALSE], FALSE),
    (orBool [FALSE, vREST], vREST),
    (orBool [vREST, FALSE], vREST),
    (orBool [TRUE, vREST], TRUE),
    (orBool [vREST, TRUE], TRUE) ]

/-- Models `simplifyBool`: apply each rule of the table exactly once, in
order, each via a full bottom-up rewrite pass. -/
def simplifyBool (k : KInner) : KInner :=
  simplifyRules.foldl (fun acc r => rewriteApply r.1 r.2 acc) k

/-! ### Variable occurrences and sort erasure -/

mutual
/-- The variable-name occurrences of a term in pre-order, as collected by
`varOccurrences`/`countVars`/`freeVars` of the source (`collect` visits a
node before its children, children left to right).  `freeVars` is the set of
these names (variables are never bound in this term language). -/
def varNamesK : KInner → List String
  | .ktoken _ _ => []
  | .kvariable n _ => [n]
  | .kapply _ args => varNamesKL args
  | .kas p a => varNamesK p ++ varNamesK a
  | .krewrite l r => varNamesK l ++ varNamesK r
  | .ksequence items => varNamesKL items

def varNamesKL : KList → List String
  | .nil => []
  | .cons h t => varNamesK h ++ varNamesKL t
end

/-- A pattern is linear when no variable name occurs twice in it. -/
def linearK (t : KInner) : Prop := (varNamesK t).Nodup

instance (t : KInner) : Decidable (linearK t) := by
  unfold linearK; infer_instance

mutual
/-- Spec-side erasure for the amended match-soundness statement: forget
token sorts and label sort-parameters, the two components `match` never
compares (`KToken.match` compares only the literal value, `KApply.match`
only the label name and arity). -/
def eraseSorts : KInner → KInner
  | .ktoken v _ => .ktoken v ⟨""⟩
  | .kvariable n s => .kvariable n s
  | .kapply l args => .kapply ⟨l.name, []⟩ (eraseSortsL args)
  | .kas p a => .kas (eraseSorts p) (eraseSorts a)
  | .krewrite l r => .krewrite (eraseSorts l) (eraseSorts r)
  | .ksequence items => .ksequence (eraseSortsL items)

def eraseSortsL : KList → KList
  | .nil => .nil
  | .cons h t => .cons (eraseSorts h) (eraseSortsL t)
end

/-! ### Substitution lemmas -/

def Subst.keys (s : Subst) : List String := s.map (·.1)

theorem Subst.get_nil (n : String) : Subst.get [] n = none := rfl

theorem Subst.get_cons (kv : String × KInner) (s : Subst) (n : String) :
    Subst.get (kv :: s) n = if kv.1 = n then some kv.2 else Subst.get s n := by
  by_cases h : kv.1 = n <;> simp [Subst.get, List.find?, h]

theorem Subst.get_append (a b : Subst) (n : String) :
    Subst.get (a ++ b) n =
      match Subst.get a n with
      | some v => some v
      | none => Subst.get b n := by
  induction a with
  | nil => simp [Subst.get_nil]
  | cons kv a ih =>
      by_cases h : kv.1 = n <;>
        simp [Subst.get_cons, h, ih]

theorem Subst.get_isSome_iff (s : Subst) (n : String) :
    (Subst.get s n).isSome ↔ n ∈ Subst.keys s := by
  induction s with
  | nil => simp [Subst.get_nil, Subst.keys]
  | cons kv s ih =>
      by_cases h : kv.1 = n <;>
        simp [Subst.get_cons, h, Subst.keys, ih] <;>
        simp [Subst.keys] at ih ⊢ <;>
        tauto

theorem Subst.keys_append (a b : Subst) :
    Subst.keys (a ++ b) = Subst.keys a ++ Subst.keys b := by
  simp [Subst.keys]

theorem Subst.keys_cons (kv : String × KInner) (s : Subst) :
    Subst.keys (kv :: s) = kv.1 :: Subst.keys s := rfl

/-- The fold of `Subst.union` propagates failure. -/
theorem Subst.unionFold_none (b : Subst) :
    b.foldl
      (fun acc kv =>
        match acc with
        | none => none
        | some r =>
          match Subst.get r kv.1 with
          | some ex => if termsEqual ex kv.2 then some r else none
          | none => some (r ++ [kv]))
      none = none := by
  induction b with
  | nil => rfl
  | cons kv b ih => simpa using ih

/-- One-step unfolding of `Subst.union`. -/
theorem Subst.union_cons (a : Subst) (kv : String × KInner) (b : Subst) :
    Subst.union a (kv :: b) =
      match Subst.get a kv.1 with
      | some ex => if termsEqual ex kv.2 then Subst.union a b else none
      | none => Subst.union (a ++ [kv]) b := by
  show (kv :: b).foldl _ (some a) = _
  rw [List.foldl_cons]
  cases hg : Subst.get a kv.1 with
  | none => simp [hg, Subst.union]
  | some ex =>
      by_cases ht : termsEqual ex kv.2
      · simp [hg, ht, Subst.union]
      · simp [hg, ht, Subst.unionFold_none]

theorem Subst.union_nil_right (a : Subst) : Subst.union a [] = some a := rfl

/-- Union with a key-disjoint, key-unique substitution is concatenation. -/
theorem Subst.union_disjoint :
    ∀ (b a : Subst), (Subst.keys b).Nodup →
      (∀ n ∈ Subst.keys b, Subst.get a n = none) →
      Subst.union a b = some (a ++ b)
  | [], a, _, _ => by simp [Subst.union_nil_right]
  | kv :: b, a, hnd, h => by
      have hk : Subst.get a kv.1 = none := h kv.1 (by simp [Subst.keys])
      rw [Subst.union_cons, hk]
      rw [Subst.keys_cons] at hnd h
      have hnd' : (Subst.keys b).Nodup := hnd.of_cons
      have hmem : kv.1 ∉ Subst.keys b := (List.nodup_cons.mp hnd).1
      rw [Subst.union_disjoint b (a ++ [kv]) hnd'
        (fun n hn => by
          have hne : kv.1 ≠ n := fun he => hmem (he ▸ hn)
          rw [Subst.get_append, h n (List.mem_cons_of_mem _ hn)]
          simp [Subst.get_cons, hne, Subst.get_nil])]
      simp

theorem Subst.union_nil_left (a : Subst) (h : (Subst.keys a).Nodup) :
    Subst.union [] a = some a := by
  simpa using Subst.union_disjoint a [] h (fun n _ => rfl)

theorem Subst.union_preserves :
    ∀ (b a r : Subst), Subst.union a b = some r →
      ∀ n v, Subst.get a n = some v → Subst.get r n = some v
  | [], a, r, h => by
      rw [Subst.union_nil_right] at h
      cases h
      exact fun n v hv => hv
  | kv :: b, a, r, h => by
      rw [Subst.union_cons] at h
      intro n v hv
      cases hg : Subst.get a kv.1 with
      | some ex =>
          rw [hg] at h
          dsimp only at h
          by_cases ht : termsEqual ex kv.2
          · rw [if_pos ht] at h
            exact Subst.union_preserves b a r h n v hv
          · rw [if_neg ht] at h; cases h
      | none =>
          rw [hg] at h
          dsimp only at h
          refine Subst.union_preserves b (a ++ [kv]) r h n v ?_
          rw [Subst.get_append, hv]

theorem Subst.union_isSome :
    ∀ (b a r : Subst), Subst.union a b = some r →
      ∀ n, (Subst.get r n).isSome ↔ ((Subst.get a n).isSome ∨ n ∈ Subst.keys b)
  | [], a, r, h => by
      rw [Subst.union_nil_right] at h
      cases h
      simp [Subst.keys]
  | kv :: b, a, r, h => by
      rw [Subst.union_cons] at h
      intro n
      cases hg : Subst.get a kv.1 with
      | some ex =>
          rw [hg] at h
          dsimp only at h
          by_cases ht : termsEqual ex kv.2
          · rw [if_pos ht] at h
            rw [Subst.union_isSome b a r h n, Subst.keys_cons]
            by_cases hn : n = kv.1
            · subst hn
              simp [hg]
            · simp [hn]
          · rw [if_neg ht] at h; cases h
      | none =>
          rw [hg] at h
          dsimp only at h
          rw [Subst.union_isSome b (a ++ [kv]) r h n, Subst.keys_cons]
          rw [Subst.get_append]
          by_cases hn : kv.1 = n
          · subst hn
            simp [Subst.get_cons]
            cases hga : Subst.get a kv.1 <;> simp [hga]
          · cases hga : Subst.get a n <;>
              simp [hga, Subst.get_cons, hn, Subst.get_nil] <;> tauto

theorem Subst.union_nodup :
    ∀ (b a r : Subst), (Subst.keys a).Nodup → Subst.union a b = some r →
      (Subst.keys r).Nodup
  | [], a, r, hnd, h => by
      rw [Subst.union_nil_right] at h; cases h; exact hnd
  | kv :: b, a, r, hnd, h => by
      rw [Subst.union_cons] at h
      cases hg : Subst.get a kv.1 with
      | some ex =>
          rw [hg] at h
          dsimp only at h
          by_cases ht : termsEqual ex kv.2
          · rw [if_pos ht] at h
            exact Subst.union_nodup b a r hnd h
          · rw [if_neg ht] at h; cases h
      | none =>
          rw [hg] at h
          dsimp only at h
          refine Subst.union_nodup b (a ++ [kv]) r ?_ h
          have hnotin : kv.1 ∉ Subst.keys a := by
            rw [← Subst.get_isSome_iff, hg]; simp
          have hks : Subst.keys [kv] = [kv.1] := rfl
          rw [Subst.keys_append, hks]
          refine hnd.append (List.nodup_singleton _) ?_
          intro x hx hm
          simp at hm
          subst hm
          exact hnotin hx

theorem cmFold_none (l : List (Option Subst)) : l.foldl cmStep none = none := by
  induction l with
  | nil => rfl
  | cons m l ih => simpa [cmStep] using ih

/-! ### Further `KList` utilities -/

namespace KList

def take : Nat → KList → KList
  | 0, _ => .nil
  | _ + 1, .nil => .nil
  | n + 1, .cons h t => .cons h (take n t)

theorem take_append_drop : ∀ (k : Nat) (l : KList), take k l ++ drop k l = l
  | 0, l => rfl
  | _ + 1, .nil => rfl
  | n + 1, .cons h t => by
      show KList.cons h (take n t ++ drop n t) = _
      rw [take_append_drop n t]

theorem length_cons (h : KInner) (t : KList) :
    (KList.cons h t).length = 1 + t.length := rfl

theorem length_append : ∀ a b : KList, (a ++ b).length = a.length + b.length
  | .nil, b => by simp [show KList.nil ++ b = b from rfl, length]
  | .cons h t, b => by
      show (KList.cons h (t ++ b)).length = _
      rw [length_cons, length_append t b, length_cons]
      omega

end KList

theorem varNamesKL_append : ∀ a b : KList, varNamesKL (a ++ b) = varNamesKL a ++ varNamesKL b
  | .nil, b => rfl
  | .cons h t, b => by
      show varNamesK h ++ varNamesKL (t ++ b) = _
      rw [varNamesKL_append t b]
      simp [varNamesKL]

theorem eraseSortsL_append : ∀ a b : KList, eraseSortsL (a ++ b) = eraseSortsL a ++ eraseSortsL b
  | .nil, b => rfl
  | .cons h t, b => by
      show KList.cons (eraseSorts h) (eraseSortsL (t ++ b)) = _
      rw [eraseSortsL_append t b]
      rfl

theorem bottomUpNaiveL_append (f : KInner → KInner) :
    ∀ a b : KList, bottomUpNaiveL f (a ++ b) = bottomUpNaiveL f a ++ bottomUpNaiveL f b
  | .nil, b => rfl
  | .cons h t, b => by
      show KList.cons (bottomUpNaive f h) (bottomUpNaiveL f (t ++ b)) = _
      rw [bottomUpNaiveL_append f t b]
      rfl

theorem noSeqTop_cons (h : KInner) (t : KList) :
    KInner.noSeqTop (.cons h t) =
      ((match h with | .ksequence _ => false | _ => true) && KInner.noSeqTop t) := by
  cases h <;> simp [KInner.noSeqTop]

theorem flattenOnce_of_noSeq : ∀ l : KList, KInner.noSeqTop l → flattenOnceL l = l
  | .nil, _ => rfl
  | .cons h t, hn => by
      rw [noSeqTop_cons] at hn
      cases h <;> simp_all [flattenOnceL, flattenOnce_of_noSeq t]

theorem flattenOnceL_cons_nonseq (h : KInner) (t : KList)
    (hns : ∀ xs, h ≠ KInner.ksequence xs) :
    flattenOnceL (.cons h t) = .cons h (flattenOnceL t) := by
  cases h <;> first | rfl | exact absurd rfl (hns _)

theorem flattenOnceL_append_noSeq :
    ∀ a b : KList, KInner.noSeqTop a → flattenOnceL (a ++ b) = a ++ flattenOnceL b
  | .nil, b, _ => rfl
  | .cons h t, b, hn => by
      rw [noSeqTop_cons] at hn
      have hns : ∀ xs, h ≠ KInner.ksequence xs := by
        intro xs he
        subst he
        simp at hn
      rw [show (KList.cons h t) ++ b = KList.cons h (t ++ b) from rfl,
        flattenOnceL_cons_nonseq h (t ++ b) hns,
        flattenOnceL_append_noSeq t b (by cases h <;> simp_all)]
      rfl

theorem eraseSorts_ksequence_iff (t : KInner) :
    (∃ xs, eraseSorts t = .ksequence xs) ↔ ∃ ys, t = .ksequence ys := by
  cases t <;> simp [eraseSorts]

theorem noSeqTop_of_erase_eq :
    ∀ A B : KList, eraseSortsL A = eraseSortsL B → KInner.noSeqTop B → KInner.noSeqTop A
  | .nil, .nil, _, _ => rfl
  | .nil, .cons _ _, h, _ => by simp [eraseSortsL] at h
  | .cons _ _, .nil, h, _ => by simp [eraseSortsL] at h
  | .cons a A, .cons b B, h, hn => by
      have h1 : eraseSorts a = eraseSorts b ∧ eraseSortsL A = eraseSortsL B := by
        simpa [eraseSortsL] using h
      rw [noSeqTop_cons] at hn ⊢
      have htail := noSeqTop_of_erase_eq A B h1.2 (by
        cases hb : b <;> simp [hb] at hn <;> simp [hn] <;> try exact hn.2
        )
      cases ha : a with
      | ksequence xs =>
          exfalso
          have : ∃ ys, b = .ksequence ys := by
            rw [← eraseSorts_ksequence_iff]
            exact ⟨_, by rw [← h1.1, ha]; rfl⟩
          obtain ⟨ys, rfl⟩ := this
          simp at hn
      | _ => simp_all

/-! ### Equations for `Subst.apply`'s recursion and apply-congruence -/

theorem applyN_ktoken (s : Subst) (v : String) (so : KSort) :
    bottomUpNaive (substReplace s) (.ktoken v so) = .ktoken v so := rfl

theorem applyN_kvariable (s : Subst) (n : String) (so : Option KSort) :
    bottomUpNaive (substReplace s) (.kvariable n so) =
      match Subst.get s n with
      | some v => v
      | none => .kvariable n so := rfl

theorem applyN_kapply (s : Subst) (l : KLabel) (args : KList) :
    bottomUpNaive (substReplace s) (.kapply l args) =
      .kapply l (bottomUpNaiveL (substReplace s) args) := rfl

theorem applyN_kas (s : Subst) (p a : KInner) :
    bottomUpNaive (substReplace s) (.kas p a) =
      .kas (bottomUpNaive (substReplace s) p) (bottomUpNaive (substReplace s) a) := rfl

theorem applyN_krewrite (s : Subst) (l r : KInner) :
    bottomUpNaive (substReplace s) (.krewrite l r) =
      .krewrite (bottomUpNaive (substReplace s) l) (bottomUpNaive (substReplace s) r) := rfl

theorem applyN_ksequence (s : Subst) (items : KList) :
    bottomUpNaive (substReplace s) (.ksequence items) =
      mkKSequence (bottomUpNaiveL (substReplace s) items) := rfl

theorem bNL_nil (f : KInner → KInner) : bottomUpNaiveL f .nil = .nil := rfl

theorem bNL_cons (f : KInner → KInner) (h : KInner) (t : KList) :
    bottomUpNaiveL f (.cons h t) = .cons (bottomUpNaive f h) (bottomUpNaiveL f t) := rfl

mutual
/-- Applying two substitutions that agree on a term's variables gives the
same result. -/
theorem apply_congr : ∀ (t : KInner) (s1 s2 : Subst),
    (∀ n, n ∈ varNamesK t → Subst.get s1 n = Subst.get s2 n) →
    bottomUpNaive (substReplace s1) t = bottomUpNaive (substReplace s2) t
  | .ktoken _ _, _, _, _ => rfl
  | .kvariable n so, s1, s2, h => by
      rw [applyN_kvariable, applyN_kvariable, h n (by simp [varNamesK])]
  | .kapply l args, s1, s2, h => by
      rw [applyN_kapply, applyN_kapply,
        apply_congrL args s1 s2 (fun n hn => h n (by simpa [varNamesK] using hn))]
  | .kas p a, s1, s2, h => by
      rw [applyN_kas, applyN_kas,
        apply_congr p s1 s2 (fun n hn => h n (by simp [varNamesK, hn])),
        apply_congr a s1 s2 (fun n hn => h n (by simp [varNamesK, hn]))]
  | .krewrite l r, s1, s2, h => by
      rw [applyN_krewrite, applyN_krewrite,
        apply_congr l s1 s2 (fun n hn => h n (by simp [varNamesK, hn])),
        apply_congr r s1 s2 (fun n hn => h n (by simp [varNamesK, hn]))]
  | .ksequence items, s1, s2, h => by
      rw [applyN_ksequence, applyN_ksequence,
        apply_congrL items s1 s2 (fun n hn => h n (by simpa [varNamesK] using hn))]

theorem apply_congrL : ∀ (l : KList) (s1 s2 : Subst),
    (∀ n, n ∈ varNamesKL l → Subst.get s1 n = Subst.get s2 n) →
    bottomUpNaiveL (substReplace s1) l = bottomUpNaiveL (substReplace s2) l
  | .nil, _, _, _ => rfl
  | .cons h t, s1, s2, hyp => by
      rw [bNL_cons, bNL_cons,
        apply_congr h s1 s2 (fun n hn => hyp n (by simp [varNamesKL, hn])),
        apply_congrL t s1 s2 (fun n hn => hyp n (by simp [varNamesKL, hn]))]
end

theorem exceptBind_ok_inv {α β : Type} {x : Except String α} {f : α → Except String β}
    {b : β} (h : (x >>= f) = .ok b) : ∃ a, x = .ok a ∧ f a = .ok b := by
  cases x with
  | error e => simp [Bind.bind, Except.bind] at h
  | ok a => exact ⟨a, rfl, by simpa [Bind.bind, Except.bind] using h⟩

theorem exceptPure_eq {α : Type} (a : α) :
    (pure a : Except String α) = .ok a := rfl

theorem KList.append_nil : ∀ l : KList, l ++ .nil = l
  | .nil => rfl
  | .cons h t => by
      show KList.cons h (t ++ KList.nil) = _
      rw [KList.append_nil t]

theorem KList.length_zero_iff : ∀ l : KList, l.length = 0 ↔ l = .nil
  | .nil => by simp [KList.length]
  | .cons h t => by simp [KList.length]

theorem KList.length_take : ∀ (k : Nat) (l : KList), (KList.take k l).length = min k l.length
  | 0, l => by simp [KList.take, KList.length]
  | n + 1, .nil => by simp [KList.take, KList.length]
  | n + 1, .cons h t => by
      show (KList.cons h (KList.take n t)).length = _
      rw [KList.length_cons, KList.length_take n t, KList.length_cons]
      omega

theorem KList.getLast_decomp : ∀ (l : KList) (x : KInner), l.getLast? = some x →
    l = KList.take (l.length - 1) l ++ KList.cons x .nil
  | .nil, x, h => by simp [KList.getLast?] at h
  | .cons h .nil, x, hl => by
      simp [KList.getLast?] at hl
      subst hl
      rfl
  | .cons h (.cons h' t), x, hl => by
      have hrec := KList.getLast_decomp (.cons h' t) x (by simpa [KList.getLast?] using hl)
      have hlen : (KList.cons h (KList.cons h' t)).length - 1 =
          ((KList.cons h' t).length - 1) + 1 := by
        simp [KList.length_cons]
        omega
      rw [hlen]
      show KList.cons h (KList.cons h' t) =
        KList.cons h (KList.take ((KList.cons h' t).length - 1) (KList.cons h' t) ++ KList.cons x .nil)
      rw [← hrec]

theorem flatBL_cons (h : KInner) (t : KList) :
    KInner.flatBL (.cons h t) = (KInner.flatB h && KInner.flatBL t) := rfl

theorem flatBL_take : ∀ (k : Nat) (l : KList), KInner.flatBL l = true →
    KInner.flatBL (KList.take k l) = true
  | 0, _, _ => rfl
  | _ + 1, .nil, _ => rfl
  | n + 1, .cons h t, hf => by
      show KInner.flatBL (.cons h (KList.take n t)) = true
      rw [flatBL_cons] at hf ⊢
      simp at hf
      simp [hf.1, flatBL_take n t hf.2]

theorem noSeqTop_take : ∀ (k : Nat) (l : KList), KInner.noSeqTop l = true →
    KInner.noSeqTop (KList.take k l) = true
  | 0, _, _ => rfl
  | _ + 1, .nil, _ => rfl
  | n + 1, .cons h t, hf => by
      show KInner.noSeqTop (.cons h (KList.take n t)) = true
      rw [noSeqTop_cons] at hf ⊢
      simp at hf ⊢
      exact ⟨hf.1, noSeqTop_take n t hf.2⟩

theorem noSeqTop_drop : ∀ (k : Nat) (l : KList), KInner.noSeqTop l = true →
    KInner.noSeqTop (KList.drop k l) = true
  | 0, _, h => h
  | _ + 1, .nil, _ => rfl
  | n + 1, .cons h t, hf => by
      show KInner.noSeqTop (KList.drop n t) = true
      rw [noSeqTop_cons] at hf
      simp at hf
      exact noSeqTop_drop n t hf.2

theorem Subst.get_singleton (m : String) (v : KInner) (n : String) :
    Subst.get [(m, v)] n = if m = n then some v else none := by
  simp [Subst.get_cons, Subst.get_nil]

theorem eraseSorts_ktoken (v : String) (so : KSort) :
    eraseSorts (.ktoken v so) = .ktoken v ⟨""⟩ := rfl

theorem eraseSorts_kvariable (n : String) (so : Option KSort) :
    eraseSorts (.kvariable n so) = .kvariable n so := rfl

theorem eraseSorts_kapply (l : KLabel) (args : KList) :
    eraseSorts (.kapply l args) = .kapply ⟨l.name, []⟩ (eraseSortsL args) := rfl

theorem eraseSorts_kas (p a : KInner) :
    eraseSorts (.kas p a) = .kas (eraseSorts p) (eraseSorts a) := rfl

theorem eraseSorts_krewrite (l r : KInner) :
    eraseSorts (.krewrite l r) = .krewrite (eraseSorts l) (eraseSorts r) := rfl

theorem eraseSorts_ksequence (items : KList) :
    eraseSorts (.ksequence items) = .ksequence (eraseSortsL items) := rfl

theorem eraseSortsL_cons (h : KInner) (t : KList) :
    eraseSortsL (.cons h t) = .cons (eraseSorts h) (eraseSortsL t) := rfl

/-- Merge step used by the match-soundness induction: under key-disjointness
the (conflict-blind) union is plain concatenation and preserves key
uniqueness. -/
theorem matchStepUnion (acc sp : Subst) (vars : List String)
    (haccnd : (Subst.keys acc).Nodup)
    (hspnd : (Subst.keys sp).Nodup)
    (hspdom : ∀ n, (Subst.get sp n).isSome ↔ n ∈ vars)
    (hdisj : ∀ n, n ∈ vars → Subst.get acc n = none) :
    Subst.union acc sp = some (acc ++ sp) ∧ (Subst.keys (acc ++ sp)).Nodup := by
  have hdis : ∀ n ∈ Subst.keys sp, Subst.get acc n = none := by
    intro n hn
    exact hdisj n ((hspdom n).mp (by rw [Subst.get_isSome_iff]; exact hn))
  refine ⟨Subst.union_disjoint sp acc hspnd hdis, ?_⟩
  rw [Subst.keys_append]
  refine haccnd.append hspnd ?_
  intro x hx hy
  have := hdis x hy
  rw [← Subst.get_isSome_iff] at hx
  rw [this] at hx
  simp at hx

theorem Subst.get_append_left_some (a b : Subst) (n : String) (v : KInner)
    (h : Subst.get a n = some v) : Subst.get (a ++ b) n = some v := by
  rw [Subst.get_append, h]

theorem Subst.get_append_left_none (a b : Subst) (n : String)
    (h : Subst.get a n = none) : Subst.get (a ++ b) n = Subst.get b n := by
  rw [Subst.get_append, h]

theorem Subst.get_append_none (a b : Subst) (n : String)
    (h1 : Subst.get a n = none) (h2 : Subst.get b n = none) :
    Subst.get (a ++ b) n = none := by
  rw [Subst.get_append, h1]
  exact h2

theorem Subst.get_append_isSome (a b : Subst) (n : String) :
    (Subst.get (a ++ b) n).isSome ↔ ((Subst.get a n).isSome ∨ (Subst.get b n).isSome) := by
  rw [Subst.get_isSome_iff, Subst.keys_append, List.mem_append,
    ← Subst.get_isSome_iff, ← Subst.get_isSome_iff]

theorem varNamesKL_cons (p : KInner) (ps : KList) :
    varNamesKL (.cons p ps) = varNamesK p ++ varNamesKL ps := rfl

theorem varNamesK_krewrite (l r : KInner) :
    varNamesK (.krewrite l r) = varNamesK l ++ varNamesK r := rfl

theorem varNamesK_ksequence (items : KList) :
    varNamesK (.ksequence items) = varNamesKL items := rfl

theorem varNamesK_kapply (l : KLabel) (args : KList) :
    varNamesK (.kapply l args) = varNamesKL args := rfl

theorem KList.take_succ_cons (k : Nat) (p : KInner) (ps : KList) :
    KList.take (k + 1) (.cons p ps) = .cons p (KList.take k ps) := rfl

/-- A returned `null` is not a returned substitution. -/
theorem okNone_ne {S : Subst}
    (h : (Except.ok (none : Option Subst) : Except String (Option Subst)) = .ok (some S)) :
    False :=
  Option.noConfusion (Except.ok.inj h)

/-! ### Match soundness (C1, amended form) -/

mutual
/-- Soundness of a successful match of a linear flat pattern against a flat
term, up to the sorts `match` never inspects: the result binds exactly the
pattern's variables, each once, and applying it to the pattern reproduces
the term modulo token sorts and label parameters. -/
theorem matchSound : ∀ (P T : KInner) (S : Subst),
    KInner.flatB P = true → KInner.flatB T = true →
    (varNamesK P).Nodup →
    matchK P T = .ok (some S) →
    (Subst.keys S).Nodup ∧
    (∀ n, (Subst.get S n).isSome ↔ n ∈ varNamesK P) ∧
    eraseSorts (bottomUpNaive (substReplace S) P) = eraseSorts T
  | .ktoken v so, T, S, _, _, _, h => by
      cases T with
      | ktoken v' so' =>
          have h2 : (if v' = v then (.ok (some []) : Except String (Option Subst))
              else .ok none) = .ok (some S) := h
          by_cases hv : v' = v
          · rw [if_pos hv] at h2
            have hS : S = [] := (Option.some.inj (Except.ok.inj h2)).symm
            subst hS
            refine ⟨List.nodup_nil, ?_, ?_⟩
            · intro n
              simp [Subst.get_nil, varNamesK]
            · rw [applyN_ktoken, eraseSorts_ktoken, eraseSorts_ktoken, hv]
          · rw [if_neg hv] at h2
            exact (okNone_ne h2).elim
      | kvariable n' so' => exact (okNone_ne h).elim
      | kapply l' args' => exact (okNone_ne h).elim
      | kas p' a' => exact (okNone_ne h).elim
      | krewrite l' r' => exact (okNone_ne h).elim
      | ksequence items' => exact (okNone_ne h).elim
  | .kvariable vn vso, T, S, _, _, _, h => by
      have hS : S = [(vn, T)] := (Option.some.inj (Except.ok.inj h)).symm
      subst hS
      refine ⟨List.nodup_singleton vn, ?_, ?_⟩
      · intro n
        rw [Subst.get_singleton]
        by_cases he : vn = n
        · simp [he, varNamesK]
        · simp [he, varNamesK, Ne.symm he]
      · rw [applyN_kvariable]
        rw [Subst.get_singleton, if_pos rfl]
  | .kapply l args, T, S, hfp, hft, hlin, h => by
      cases T with
      | kapply l' args' =>
          have h2 : (if l'.name = l.name && args'.length = args.length then
              matchKL args args' >>= (fun ms => pure (combineMatches ms))
            else .ok none) = .ok (some S) := h
          by_cases hc : l'.name = l.name && args'.length = args.length
          · rw [if_pos hc] at h2
            obtain ⟨ms, hms, hpure⟩ := exceptBind_ok_inv h2
            rw [exceptPure_eq] at hpure
            have hcm : combineMatches ms = some S := Except.ok.inj hpure
            simp only [Bool.and_eq_true, decide_eq_true_eq] at hc
            have hrec := matchSoundL' args args' ms [] S hfp hft hlin hc.2.symm
              List.nodup_nil (fun _ _ => rfl) hms hcm
            obtain ⟨hnd, _, hdom, herase⟩ := hrec
            refine ⟨hnd, ?_, ?_⟩
            · intro n
              rw [hdom n, varNamesK_kapply]
              simp [Subst.get_nil]
            · rw [applyN_kapply, eraseSorts_kapply, eraseSorts_kapply, herase, hc.1]
          · rw [if_neg hc] at h2
            exact (okNone_ne h2).elim
      | ktoken v' so' => exact (okNone_ne h).elim
      | kvariable n' so' => exact (okNone_ne h).elim
      | kas p' a' => exact (okNone_ne h).elim
      | krewrite l' r' => exact (okNone_ne h).elim
      | ksequence items' => exact (okNone_ne h).elim
  | .kas p a, T, S, _, _, _, h => by
      exact Except.noConfusion h
  | .krewrite pl pr, T, S, hfp, hft, hlin, h => by
      cases T with
      | krewrite tl tr =>
          have h2 : (matchK pl tl >>= fun s1 =>
              matchK pr tr >>= fun s2 =>
                match s1, s2 with
                | some a, some b => pure (Subst.union a b)
                | _, _ => pure none) = .ok (some S) := h
          obtain ⟨s1, hs1, h3⟩ := exceptBind_ok_inv h2
          obtain ⟨s2, hs2, h4⟩ := exceptBind_ok_inv h3
          cases s1 with
          | none => cases s2 <;> simp [exceptPure_eq] at h4
          | some a =>
            cases s2 with
            | none => simp [exceptPure_eq] at h4
            | some b =>
                rw [exceptPure_eq] at h4
                have hu : Subst.union a b = some S := Except.ok.inj h4
                have hfp2 : (KInner.flatB pl && KInner.flatB pr) = true := hfp
                have hft2 : (KInner.flatB tl && KInner.flatB tr) = true := hft
                simp only [Bool.and_eq_true] at hfp2 hft2
                rw [varNamesK_krewrite] at hlin
                obtain ⟨hndl, hndr, hdisjv⟩ := List.nodup_append.mp hlin
                obtain ⟨hand, hadom, haerase⟩ :=
                  matchSound pl tl a hfp2.1 hft2.1 hndl hs1
                obtain ⟨hbnd, hbdom, hberase⟩ :=
                  matchSound pr tr b hfp2.2 hft2.2 hndr hs2
                have hstep := matchStepUnion a b (varNamesK pr) hand hbnd hbdom
                  (fun n hn => by
                    have hnot : ¬ (Subst.get a n).isSome := by
                      rw [hadom n]
                      exact fun hmem => hdisjv hmem hn
                    exact Option.not_isSome_iff_eq_none.mp hnot)
                rw [hu] at hstep
                have hS : S = a ++ b := Option.some.inj hstep.1
                subst hS
                refine ⟨hstep.2, ?_, ?_⟩
                · intro n
                  rw [Subst.get_append_isSome, hadom n, hbdom n,
                    varNamesK_krewrite, List.mem_append]
                · rw [applyN_krewrite, eraseSorts_krewrite, eraseSorts_krewrite]
                  have hagree1 : ∀ n, n ∈ varNamesK pl →
                      Subst.get (a ++ b) n = Subst.get a n := by
                    intro n hn
                    have hsome : (Subst.get a n).isSome := (hadom n).mpr hn
                    cases hg : Subst.get a n with
                    | none => rw [hg] at hsome; simp at hsome
                    | some v => exact Subst.get_append_left_some a b n v hg
                  have hagree2 : ∀ n, n ∈ varNamesK pr →
                      Subst.get (a ++ b) n = Subst.get b n := by
                    intro n hn
                    refine Subst.get_append_left_none a b n ?_
                    have hnot : ¬ (Subst.get a n).isSome := by
                      rw [hadom n]
                      exact fun hmem => hdisjv hmem hn
                    exact Option.not_isSome_iff_eq_none.mp hnot
                  rw [apply_congr pl (a ++ b) a hagree1, haerase,
                    apply_congr pr (a ++ b) b hagree2, hberase]
      | ktoken v' so' => exact (okNone_ne h).elim
      | kvariable n' so' => exact (okNone_ne h).elim
      | kapply l' args' => exact (okNone_ne h).elim
      | kas p' a' => exact (okNone_ne h).elim
      | ksequence items' => exact (okNone_ne h).elim
  | .ksequence items, T, S, hfp, hft, hlin, h => by
      cases T with
      | ksequence items' =>
          have hfp2 : (KInner.flatBL items && KInner.noSeqTop items) = true := hfp
          have hft2 : (KInner.flatBL items' && KInner.noSeqTop items') = true := hft
          simp only [Bool.and_eq_true] at hfp2 hft2
          rw [varNamesK_ksequence] at hlin
          have h2 : (if items'.length = items.length then
              matchKL items items' >>= (fun ms => pure (combineMatches ms))
            else
              if 0 < items.length && items.length < items'.length then
                match items.getLast? with
                | some (.kvariable vn _) =>
                    if seqVarReuse items (items.length - 1) vn then .ok none
                    else
                      matchSeqLoop items items' (items.length - 1)
                        (some [(vn, mkKSequence (KList.drop (items.length - 1) items'))])
                | _ => .ok none
              else .ok none) = .ok (some S) := h
          by_cases hle : items'.length = items.length
          · rw [if_pos hle] at h2
            obtain ⟨ms, hms, hpure⟩ := exceptBind_ok_inv h2
            rw [exceptPure_eq] at hpure
            have hcm : combineMatches ms = some S := Except.ok.inj hpure
            have hrec := matchSoundL' items items' ms [] S hfp2.1 hft2.1 hlin hle.symm
              List.nodup_nil (fun _ _ => rfl) hms hcm
            obtain ⟨hnd, _, hdom, herase⟩ := hrec
            refine ⟨hnd, ?_, ?_⟩
            · intro n
              rw [hdom n, varNamesK_ksequence]
              simp [Subst.get_nil]
            · have hns : KInner.noSeqTop (bottomUpNaiveL (substReplace S) items) = true :=
                noSeqTop_of_erase_eq _ items' herase hft2.2
              rw [applyN_ksequence,
                show mkKSequence (bottomUpNaiveL (substReplace S) items) =
                  KInner.ksequence (flattenOnceL (bottomUpNaiveL (substReplace S) items))
                from rfl,
                flattenOnce_of_noSeq _ hns,
                eraseSorts_ksequence, eraseSorts_ksequence, herase]
          · rw [if_neg hle] at h2
            by_cases hv : 0 < items.length && items.length < items'.length
            · rw [if_pos hv] at h2
              simp only [Bool.and_eq_true, decide_eq_true_eq] at hv
              cases hlast : items.getLast? with
              | none =>
                  rw [hlast] at h2
                  exact (okNone_ne h2).elim
              | some x =>
                  rw [hlast] at h2
                  cases x with
                  | kvariable vn vso =>
                      have h3 : (if seqVarReuse items (items.length - 1) vn = true then
                          (.ok none : Except String (Option Subst))
                        else
                          matchSeqLoop items items' (items.length - 1)
                            (some [(vn, mkKSequence
                              (KList.drop (items.length - 1) items'))])) = .ok (some S) := h2
                      by_cases hreuse : seqVarReuse items (items.length - 1) vn = true
                      · rw [if_pos hreuse] at h3
                        exact (okNone_ne h3).elim
                      · rw [if_neg hreuse] at h3
                        have hdecomp := KList.getLast_decomp items _ hlast
                        have hvars : varNamesKL items =
                            varNamesKL (KList.take (items.length - 1) items) ++ [vn] := by
                          conv_lhs => rw [hdecomp]
                          rw [varNamesKL_append]
                          simp [varNamesKL, varNamesK]
                        rw [hvars] at hlin
                        obtain ⟨hndA, _, hdisjA⟩ := List.nodup_append.mp hlin
                        have hk1 : items.length - 1 ≤ items.length := Nat.sub_le _ _
                        have hk2 : items.length - 1 ≤ items'.length := by omega
                        have hloop := matchSoundLoop items items' (items.length - 1)
                          [(vn, mkKSequence (KList.drop (items.length - 1) items'))] S
                          hfp2.1 hft2.1 hndA hk1 hk2
                          (List.nodup_singleton vn)
                          (fun n hn => by
                            rw [Subst.get_singleton]
                            have hne : vn ≠ n := fun he =>
                              hdisjA hn (by simp [he])
                            rw [if_neg hne])
                          h3
                        obtain ⟨hSnd, hSpres, hSdom, hSerase⟩ := hloop
                        have hgetvn : Subst.get S vn =
                            some (mkKSequence (KList.drop (items.length - 1) items')) :=
                          hSpres vn _ (by rw [Subst.get_singleton, if_pos rfl])
                        refine ⟨hSnd, ?_, ?_⟩
                        · intro n
                          rw [hSdom n, varNamesK_ksequence, hvars,
                            Subst.get_singleton, List.mem_append]
                          by_cases he : vn = n
                          · simp [he]
                          · simp [he, Ne.symm he]
                        · have hb1 : bottomUpNaiveL (substReplace S)
                                (KList.cons (KInner.kvariable vn vso) .nil) =
                              KList.cons (mkKSequence (KList.drop (items.length - 1) items'))
                                .nil := by
                            rw [bNL_cons, applyN_kvariable, hgetvn]
                            rfl
                          have hb : bottomUpNaiveL (substReplace S) items =
                              bottomUpNaiveL (substReplace S)
                                  (KList.take (items.length - 1) items) ++
                                KList.cons
                                  (mkKSequence (KList.drop (items.length - 1) items'))
                                  .nil := by
                            conv_lhs => rw [hdecomp]
                            rw [bottomUpNaiveL_append, hb1]
                          have hnsA : KInner.noSeqTop (bottomUpNaiveL (substReplace S)
                              (KList.take (items.length - 1) items)) = true :=
                            noSeqTop_of_erase_eq _ _ hSerase
                              (noSeqTop_take _ items' hft2.2)
                          have hnsD : KInner.noSeqTop
                              (KList.drop (items.length - 1) items') = true :=
                            noSeqTop_drop _ items' hft2.2
                          have htailv : mkKSequence (KList.drop (items.length - 1) items') =
                              KInner.ksequence (KList.drop (items.length - 1) items') := by
                            rw [show mkKSequence (KList.drop (items.length - 1) items') =
                                KInner.ksequence
                                  (flattenOnceL (KList.drop (items.length - 1) items'))
                              from rfl]
                            rw [flattenOnce_of_noSeq _ hnsD]
                          have hflat : flattenOnceL (bottomUpNaiveL (substReplace S) items) =
                              bottomUpNaiveL (substReplace S)
                                  (KList.take (items.length - 1) items) ++
                                KList.drop (items.length - 1) items' := by
                            rw [hb, htailv, flattenOnceL_append_noSeq _ _ hnsA]
                            congr 1
                            rw [show flattenOnceL
                                (KList.cons
                                  (KInner.ksequence (KList.drop (items.length - 1) items'))
                                  .nil) =
                                KList.drop (items.length - 1) items' ++ flattenOnceL .nil
                              from rfl]
                            rw [show flattenOnceL KList.nil = KList.nil from rfl]
                            exact KList.append_nil _
                          rw [applyN_ksequence,
                            show mkKSequence (bottomUpNaiveL (substReplace S) items) =
                              KInner.ksequence
                                (flattenOnceL (bottomUpNaiveL (substReplace S) items))
                            from rfl,
                            hflat, eraseSorts_ksequence, eraseSorts_ksequence,
                            eraseSortsL_append, hSerase, ← eraseSortsL_append,
                            KList.take_append_drop]
                  | ktoken v' so' =>
                      exact (okNone_ne h2).elim
                  | kapply l' args' =>
                      exact (okNone_ne h2).elim
                  | kas p' a' =>
                      exact (okNone_ne h2).elim
                  | krewrite l' r' =>
                      exact (okNone_ne h2).elim
                  | ksequence xs' =>
                      exact (okNone_ne h2).elim
            · rw [if_neg hv] at h2
              exact (okNone_ne h2).elim
      | ktoken v' so' => exact (okNone_ne h).elim
      | kvariable n' so' => exact (okNone_ne h).elim
      | kapply l' args' => exact (okNone_ne h).elim
      | kas p' a' => exact (okNone_ne h).elim
      | krewrite l' r' => exact (okNone_ne h).elim

/-- List version of match soundness, generalized over the substitution
accumulated by `combineMatches`' fold. -/
theorem matchSoundL' : ∀ (ps ts : KList) (ms : List (Option Subst)) (acc S : Subst),
    KInner.flatBL ps = true → KInner.flatBL ts = true →
    (varNamesKL ps).Nodup →
    ps.length = ts.length →
    (Subst.keys acc).Nodup →
    (∀ n, n ∈ varNamesKL ps → Subst.get acc n = none) →
    matchKL ps ts = .ok ms →
    ms.foldl cmStep (some acc) = some S →
    (Subst.keys S).Nodup ∧
    (∀ n v, Subst.get acc n = some v → Subst.get S n = some v) ∧
    (∀ n, (Subst.get S n).isSome ↔ ((Subst.get acc n).isSome ∨ n ∈ varNamesKL ps)) ∧
    eraseSortsL (bottomUpNaiveL (substReplace S) ps) = eraseSortsL ts
  | .nil, ts, ms, acc, S, _, _, _, hlen, hand, _, hml, hfold => by
      have hts : ts = .nil := by
        rw [← KList.length_zero_iff]
        have h0 : (KList.nil).length = ts.length := hlen
        simpa [KList.length] using h0.symm
      subst hts
      have hml2 : (Except.ok ([] : List (Option Subst)) :
          Except String (List (Option Subst))) = .ok ms := hml
      have hms : ms = [] := (Except.ok.inj hml2).symm
      subst hms
      have hS : S = acc := (Option.some.inj (hfold : some acc = some S)).symm
      subst hS
      refine ⟨hand, fun _ _ hv => hv, ?_, rfl⟩
      intro n
      simp [varNamesKL]
  | .cons p ps, ts, ms, acc, S, hfp, hft, hlin, hlen, hand, hdisj, hml, hfold => by
      cases ts with
      | nil =>
          exfalso
          rw [KList.length_cons] at hlen
          simp [KList.length] at hlen
      | cons q qs =>
          have h2 : (matchK p q >>= fun m =>
              matchKL ps qs >>= fun ms' => pure (m :: ms')) = .ok ms := hml
          obtain ⟨m, hm, h3⟩ := exceptBind_ok_inv h2
          obtain ⟨ms', hms', h4⟩ := exceptBind_ok_inv h3
          rw [exceptPure_eq] at h4
          have hms : ms = m :: ms' := (Except.ok.inj h4).symm
          subst hms
          rw [List.foldl_cons] at hfold
          cases m with
          | none =>
              rw [show cmStep (some acc) none = none from rfl, cmFold_none] at hfold
              exact Option.noConfusion hfold
          | some sp =>
              rw [show cmStep (some acc) (some sp) = Subst.union acc sp from rfl] at hfold
              rw [flatBL_cons] at hfp hft
              simp only [Bool.and_eq_true] at hfp hft
              rw [varNamesKL_cons] at hlin
              obtain ⟨hndp, hndps, hdisjv⟩ := List.nodup_append.mp hlin
              have hlen2 : ps.length = qs.length := by
                rw [KList.length_cons, KList.length_cons] at hlen
                omega
              obtain ⟨hspnd, hspdom, hsperase⟩ := matchSound p q sp hfp.1 hft.1 hndp hm
              have hstep := matchStepUnion acc sp (varNamesK p) hand hspnd hspdom
                (fun n hn => hdisj n (by rw [varNamesKL_cons]; exact List.mem_append_left _ hn))
              rw [hstep.1] at hfold
              have hrec := matchSoundL' ps qs ms' (acc ++ sp) S hfp.2 hft.2 hndps hlen2
                hstep.2
                (fun n hn => by
                  refine Subst.get_append_none acc sp n
                    (hdisj n (by rw [varNamesKL_cons]; exact List.mem_append_right _ hn)) ?_
                  have hnot : ¬ (Subst.get sp n).isSome := by
                    rw [hspdom n]
                    exact fun hmem => hdisjv hmem hn
                  exact Option.not_isSome_iff_eq_none.mp hnot)
                hms' hfold
              obtain ⟨hSnd, hSpres, hSdom, hSerase⟩ := hrec
              refine ⟨hSnd, ?_, ?_, ?_⟩
              · intro n v hv
                exact hSpres n v (Subst.get_append_left_some acc sp n v hv)
              · intro n
                rw [hSdom n, Subst.get_append_isSome, hspdom n, varNamesKL_cons,
                  List.mem_append]
                tauto
              · rw [bNL_cons, eraseSortsL_cons, eraseSortsL_cons, hSerase]
                have hagree : ∀ n, n ∈ varNamesK p → Subst.get S n = Subst.get sp n := by
                  intro n hn
                  have hsome : (Subst.get sp n).isSome := (hspdom n).mpr hn
                  cases hg : Subst.get sp n with
                  | none => rw [hg] at hsome; simp at hsome
                  | some v =>
                      exact hSpres n v ((Subst.get_append_left_none acc sp n
                        (hdisj n (by rw [varNamesKL_cons]
                                     exact List.mem_append_left _ hn))).trans hg)
                rw [apply_congr p S sp hagree, hsperase]

/-- Loop version of match soundness for the variadic sequence tail: only the
first `k` pattern and subject items take part. -/
theorem matchSoundLoop : ∀ (ps ts : KList) (k : Nat) (acc S : Subst),
    KInner.flatBL ps = true → KInner.flatBL ts = true →
    (varNamesKL (KList.take k ps)).Nodup →
    k ≤ ps.length → k ≤ ts.length →
    (Subst.keys acc).Nodup →
    (∀ n, n ∈ varNamesKL (KList.take k ps) → Subst.get acc n = none) →
    matchSeqLoop ps ts k (some acc) = .ok (some S) →
    (Subst.keys S).Nodup ∧
    (∀ n v, Subst.get acc n = some v → Subst.get S n = some v) ∧
    (∀ n, (Subst.get S n).isSome ↔
      ((Subst.get acc n).isSome ∨ n ∈ varNamesKL (KList.take k ps))) ∧
    eraseSortsL (bottomUpNaiveL (substReplace S) (KList.take k ps)) =
      eraseSortsL (KList.take k ts)
  | ps, ts, 0, acc, S, _, _, _, _, _, hand, _, hloop => by
      have hacc : (Except.ok (some acc) : Except String (Option Subst)) = .ok (some S) := by
        cases ps <;> cases ts <;> exact hloop
      have hS : S = acc := (Option.some.inj (Except.ok.inj hacc)).symm
      subst hS
      refine ⟨hand, fun _ _ hv => hv, ?_, rfl⟩
      intro n
      simp [KList.take, varNamesKL]
  | .nil, ts, k + 1, acc, S, _, _, _, hkp, _, _, _, _ => by
      exfalso
      simp [KList.length] at hkp
  | .cons p ps, .nil, k + 1, acc, S, _, _, _, _, hkt, _, _, _ => by
      exfalso
      simp [KList.length] at hkt
  | .cons p ps, .cons q qs, k + 1, acc, S, hfp, hft, hlin, hkp, hkt, hand, hdisj, hloop => by
      have h2 : (matchK p q >>= fun m =>
          match combineMatches [some acc, m] with
          | none => (.ok none : Except String (Option Subst))
          | some s => matchSeqLoop ps qs k (some s)) = .ok (some S) := hloop
      obtain ⟨m, hm, h3⟩ := exceptBind_ok_inv h2
      cases m with
      | none =>
          have hnone : combineMatches [some acc, (none : Option Subst)] = none := by
            show cmStep (Subst.union [] acc) none = none
            cases Subst.union [] acc <;> rfl
          rw [hnone] at h3
          exact (okNone_ne h3).elim
      | some sp =>
          have hsome : combineMatches [some acc, some sp] = Subst.union acc sp := by
            show cmStep (Subst.union [] acc) (some sp) = _
            rw [Subst.union_nil_left acc hand]
            rfl
          rw [hsome] at h3
          rw [flatBL_cons] at hfp hft
          simp only [Bool.and_eq_true] at hfp hft
          rw [KList.take_succ_cons, varNamesKL_cons] at hlin
          obtain ⟨hndp, hndps, hdisjv⟩ := List.nodup_append.mp hlin
          have hkp2 : k ≤ ps.length := by
            rw [KList.length_cons] at hkp
            omega
          have hkt2 : k ≤ qs.length := by
            rw [KList.length_cons] at hkt
            omega
          obtain ⟨hspnd, hspdom, hsperase⟩ := matchSound p q sp hfp.1 hft.1 hndp hm
          have hstep := matchStepUnion acc sp (varNamesK p) hand hspnd hspdom
            (fun n hn => hdisj n (by
              rw [KList.take_succ_cons, varNamesKL_cons]
              exact List.mem_append_left _ hn))
          rw [hstep.1] at h3
          have hrec := matchSoundLoop ps qs k (acc ++ sp) S hfp.2 hft.2 hndps hkp2 hkt2
            hstep.2
            (fun n hn => by
              refine Subst.get_append_none acc sp n
                (hdisj n (by
                  rw [KList.take_succ_cons, varNamesKL_cons]
                  exact List.mem_append_right _ hn)) ?_
              have hnot : ¬ (Subst.get sp n).isSome := by
                rw [hspdom n]
                exact fun hmem => hdisjv hmem hn
              exact Option.not_isSome_iff_eq_none.mp hnot)
            h3
          obtain ⟨hSnd, hSpres, hSdom, hSerase⟩ := hrec
          refine ⟨hSnd, ?_, ?_, ?_⟩
          · intro n v hv
            exact hSpres n v (Subst.get_append_left_some acc sp n v hv)
          · intro n
            rw [hSdom n, Subst.get_append_isSome, hspdom n, KList.take_succ_cons,
              varNamesKL_cons, List.mem_append]
            tauto
          · rw [KList.take_succ_cons, KList.take_succ_cons, bNL_cons, eraseSortsL_cons,
              eraseSortsL_cons, hSerase]
            have hagree : ∀ n, n ∈ varNamesK p → Subst.get S n = Subst.get sp n := by
              intro n hn
              have hsome : (Subst.get sp n).isSome := (hspdom n).mpr hn
              cases hg : Subst.get sp n with
              | none => rw [hg] at hsome; simp at hsome
              | some v =>
                  exact hSpres n v ((Subst.get_append_left_none acc sp n
                    (hdisj n (by rw [KList.take_succ_cons, varNamesKL_cons]
                                 exact List.mem_append_left _ hn))).trans hg)
            rw [apply_congr p S sp hagree, hsperase]
end

/-! ### Claim C1 -/

/-- C1 (amended): match soundness holds only up to the sorts `match` never
inspects.  For every flat, linear pattern `P` and flat term `T`, if
`P.match(T)` returns a substitution `S`, then `S.apply(P)` equals `T` after
erasing token sorts and label parameters (the components `KToken.match` and
`KApply.match` do not compare); the substitution binds exactly the pattern's
variables.  The unqualified structural equality of the original claim is
refuted by `C1_counterexample`. -/
theorem C1_match_soundness (P T : KInner) (S : Subst)
    (hfp : KInner.flatB P = true) (hft : KInner.flatB T = true)
    (hlin : linearK P)
    (h : matchK P T = .ok (some S)) :
    (∀ n, (Subst.get S n).isSome ↔ n ∈ varNamesK P) ∧
    eraseSorts (Subst.apply S P) = eraseSorts T := by
  obtain ⟨_, hdom, herase⟩ := matchSound P T S hfp hft hlin h
  rw [Subst.apply_eq]
  exact ⟨hdom, herase⟩

/-- C1, refuting the original unqualified claim: matching the token `1:Int`
against `1:Foo` succeeds with the empty substitution, but applying it to the
pattern does not reproduce the term (the sorts differ); and matching the
nonlinear pattern `f(x, x)` against `f(a, b)` succeeds (the conflict check of
`union` is vacuous on non-variable values), yet applying the result gives
`f(a, a) ≠ f(a, b)`. -/
theorem C1_counterexample :
    matchK (KInner.ktoken "1" ⟨"Int"⟩) (KInner.ktoken "1" ⟨"Foo"⟩) = .ok (some []) ∧
    Subst.apply [] (KInner.ktoken "1" ⟨"Int"⟩) ≠ KInner.ktoken "1" ⟨"Foo"⟩ ∧
    matchK
      (KInner.kapply ⟨"f", []⟩
        (.cons (.kvariable "x" none) (.cons (.kvariable "x" none) .nil)))
      (KInner.kapply ⟨"f", []⟩
        (.cons (.ktoken "a" ⟨"S"⟩) (.cons (.ktoken "b" ⟨"S"⟩) .nil))) =
      .ok (some [("x", KInner.ktoken "a" ⟨"S"⟩)]) ∧
    Subst.apply [("x", KInner.ktoken "a" ⟨"S"⟩)]
        (KInner.kapply ⟨"f", []⟩
          (.cons (.kvariable "x" none) (.cons (.kvariable "x" none) .nil))) ≠
      KInner.kapply ⟨"f", []⟩
        (.cons (.ktoken "a" ⟨"S"⟩) (.cons (.ktoken "b" ⟨"S"⟩) .nil)) :=
  ⟨rfl, by decide, rfl, by decide⟩

/-- C1 witness: a concrete successful match of `f(x)` against `f(a)`, with
every hypothesis of `C1_match_soundness` discharged by evaluation. -/
theorem C1_match_soundness_witness :
    KInner.flatB (KInner.kapply ⟨"f", []⟩ (.cons (.kvariable "x" none) .nil)) = true ∧
    KInner.flatB (KInner.kapply ⟨"f", []⟩ (.cons (.ktoken "a" ⟨"S"⟩) .nil)) = true ∧
    linearK (KInner.kapply ⟨"f", []⟩ (.cons (.kvariable "x" none) .nil)) ∧
    matchK (KInner.kapply ⟨"f", []⟩ (.cons (.kvariable "x" none) .nil))
        (KInner.kapply ⟨"f", []⟩ (.cons (.ktoken "a" ⟨"S"⟩) .nil)) =
      .ok (some [("x", KInner.ktoken "a" ⟨"S"⟩)]) ∧
    (∀ n, (Subst.get [("x", KInner.ktoken "a" ⟨"S"⟩)] n).isSome ↔
      n ∈ varNamesK (KInner.kapply ⟨"f", []⟩ (.cons (.kvariable "x" none) .nil))) ∧
    eraseSorts (Subst.apply [("x", KInner.ktoken "a" ⟨"S"⟩)]
        (KInner.kapply ⟨"f", []⟩ (.cons (.kvariable "x" none) .nil))) =
      eraseSorts (KInner.kapply ⟨"f", []⟩ (.cons (.ktoken "a" ⟨"S"⟩) .nil)) := by
  refine ⟨rfl, rfl, by decide, rfl, ?_⟩
  exact C1_match_soundness
    (KInner.kapply ⟨"f", []⟩ (.cons (.kvariable "x" none) .nil))
    (KInner.kapply ⟨"f", []⟩ (.cons (.ktoken "a" ⟨"S"⟩) .nil))
    [("x", KInner.ktoken "a" ⟨"S"⟩)] rfl rfl (by decide) rfl

/-! ### Claim C9 -/

/-- C9: the iterative, explicit work-stack `bottomUp` agrees with the naive
recursive definition: `bottomUp(f, t)` equals
`f(t.letTerms(t.terms.map(child => bottomUp(f, child))))` for every
transformer `f` and term `t`. -/
theorem C9_bottomUp_iterative (f : KInner → KInner) (t : KInner) :
    bottomUp f t =
      f (KInner.letTerms t
        (KList.ofList ((KInner.terms t).toList.map (bottomUp f)))) ∧
    bottomUp f t = bottomUpNaive f t := by
  have hfun : bottomUp f = bottomUpNaive f := funext (bottomUp_eq f)
  refine ⟨?_, bottomUp_eq f t⟩
  rw [hfun, bottomUpNaive_unfold]

/-- C9 witness (no hypotheses are needed; recorded at a concrete input for
evaluation): `bottomUp` over a two-level application. -/
theorem C9_bottomUp_iterative_witness :
    bottomUp (fun u => u)
        (KInner.kapply ⟨"f", []⟩ (.cons (.ktoken "a" ⟨"S"⟩) .nil)) =
      KInner.kapply ⟨"f", []⟩ (.cons (.ktoken "a" ⟨"S"⟩) .nil) :=
  ((C9_bottomUp_iterative (fun u => u)
    (KInner.kapply ⟨"f", []⟩ (.cons (.ktoken "a" ⟨"S"⟩) .nil))).2).trans rfl

/-! ### Claim C5 -/

/-- C5: the conflict branch of `Subst.union` is unreachable for non-variable
values, contradicting the claimed conflict detection (and the source's own
comments).  `union` decides "equal values" by comparing
`JSON.stringify(term.toDict())`, and `toDict` returns a JS `Map`, which
`JSON.stringify` serializes as `"{}"` for every term; so any two values
under a shared key are deemed equal unless both are `KVariable`s (which take
a different code path comparing name and sort).  Concretely
`{x: 1}.union({x: 2})` returns `{x: 1}` instead of the claimed `null`, while
the variable-vs-variable comparison still detects the conflict. -/
theorem C5_union_conflict_vacuous :
    Subst.union [("x", KInner.ktoken "1" INT)] [("x", KInner.ktoken "2" INT)] =
      some [("x", KInner.ktoken "1" INT)] ∧
    KInner.ktoken "1" INT ≠ KInner.ktoken "2" INT ∧
    Subst.union [("x", KInner.kvariable "a" none)]
        [("x", KInner.kvariable "b" none)] =
      none := by
  decide

/-! ### Claim C8 -/

/-- C8 (amended): `simplifyBool` applies its fixed rule table in a single
pass (each rule once, in table order, bottom-up); every rule of the table
fires on its redex, but the table contains no double-negation rule, and a
rewrite introduced by one pass is not re-simplified, so a second application
of `simplifyBool` can make further progress.  The original fixpoint claim is
refuted by `C8_counterexample`. -/
theorem C8_simplifyBool_single_pass :
    simplifyBool (notBool FALSE) = TRUE ∧
    simplifyBool (notBool TRUE) = FALSE ∧
    simplifyBool (andBool [TRUE, KInner.kvariable "B" (some BOOL)]) =
      KInner.kvariable "B" (some BOOL) ∧
    simplifyBool (orBool [FALSE, KInner.kvariable "B" (some BOOL)]) =
      KInner.kvariable "B" (some BOOL) ∧
    simplifyBool (eqKApp (KInner.kvariable "B" (some BOOL)) TRUE) =
      KInner.kvariable "B" (some BOOL) ∧
    simplifyBool (notBool (notBool TRUE)) = notBool FALSE ∧
    simplifyBool (simplifyBool (notBool (notBool TRUE))) = TRUE := by
  decide

/-- C8, refuting the fixpoint claim: on the doubly negated `true` the single
pass stops at `notBool(false)` (the inner negation is rewritten first,
bottom-up, and the outer redex this creates is never revisited), so a second
pass still makes progress. -/
theorem C8_counterexample :
    simplifyBool (notBool (notBool TRUE)) = notBool FALSE ∧
    simplifyBool (simplifyBool (notBool (notBool TRUE))) ≠
      simplifyBool (notBool (notBool TRUE)) := by
  decide

/-! ### Preservation along the variadic-tail loop (no linearity needed) -/

/-- Bindings already in the accumulator survive `matchSeqLoop`: each step
merges through `union`, which keeps the existing value of a key present on
both sides. -/
theorem seqLoopPreserves : ∀ (ps ts : KList) (k : Nat) (acc S : Subst),
    (Subst.keys acc).Nodup →
    matchSeqLoop ps ts k (some acc) = .ok (some S) →
    ∀ n v, Subst.get acc n = some v → Subst.get S n = some v
  | ps, ts, 0, acc, S, _, hloop => by
      have hacc : (Except.ok (some acc) : Except String (Option Subst)) = .ok (some S) := by
        cases ps <;> cases ts <;> exact hloop
      have hS : S = acc := (Option.some.inj (Except.ok.inj hacc)).symm
      subst hS
      exact fun _ _ hv => hv
  | .nil, ts, k + 1, acc, S, _, hloop => by
      have hacc : (Except.ok (some acc) : Except String (Option Subst)) = .ok (some S) :=
        hloop
      have hS : S = acc := (Option.some.inj (Except.ok.inj hacc)).symm
      subst hS
      exact fun _ _ hv => hv
  | .cons p ps, .nil, k + 1, acc, S, _, hloop => by
      have hacc : (Except.ok (some acc) : Except String (Option Subst)) = .ok (some S) :=
        hloop
      have hS : S = acc := (Option.some.inj (Except.ok.inj hacc)).symm
      subst hS
      exact fun _ _ hv => hv
  | .cons p ps, .cons q qs, k + 1, acc, S, hand, hloop => by
      have h2 : (matchK p q >>= fun m =>
          match combineMatches [some acc, m] with
          | none => (.ok none : Except String (Option Subst))
          | some s => matchSeqLoop ps qs k (some s)) = .ok (some S) := hloop
      obtain ⟨m, hm, h3⟩ := exceptBind_ok_inv h2
      cases m with
      | none =>
          have hnone : combineMatches [some acc, (none : Option Subst)] = none := by
            show cmStep (Subst.union [] acc) none = none
            cases Subst.union [] acc <;> rfl
          rw [hnone] at h3
          exact (okNone_ne h3).elim
      | some sp =>
          have hsome : combineMatches [some acc, some sp] = Subst.union acc sp := by
            show cmStep (Subst.union [] acc) (some sp) = _
            rw [Subst.union_nil_left acc hand]
            rfl
          rw [hsome] at h3
          cases hu : Subst.union acc sp with
          | none =>
              rw [hu] at h3
              exact (okNone_ne h3).elim
          | some r =>
              rw [hu] at h3
              have hrec := seqLoopPreserves ps qs k r S
                (Subst.union_nodup sp acc r hand hu) h3
              exact fun n v hv =>
                hrec n v (Subst.union_preserves sp acc r hu n v hv)

/-! ### Claim C6 -/

/-- C6 (amended): when a shorter pattern sequence matches a longer subject
sequence, the last pattern item is necessarily a variable, the reuse check on
the OTHER TOP-LEVEL pattern items must have passed, and that variable is
bound to the remaining subject tail as a sub-sequence.  The original claim's
stronger guarantee — rejection of the tail variable's name reused ANYWHERE
else in the pattern — is refuted by `C6_counterexample`: the check inspects
only the top-level items, and a nested reuse is silently accepted. -/
theorem C6_variadic_tail (items items' : KList) (S : Subst)
    (h0 : 0 < items.length) (hlt : items.length < items'.length)
    (h : matchK (.ksequence items) (.ksequence items') = .ok (some S)) :
    ∃ vn vso, items.getLast? = some (KInner.kvariable vn vso) ∧
      seqVarReuse items (items.length - 1) vn = false ∧
      Subst.get S vn = some (mkKSequence (KList.drop (items.length - 1) items')) := by
  have h2 : (if items'.length = items.length then
      matchKL items items' >>= (fun ms => pure (combineMatches ms))
    else
      if 0 < items.length && items.length < items'.length then
        match items.getLast? with
        | some (.kvariable vn _) =>
            if seqVarReuse items (items.length - 1) vn then .ok none
            else
              matchSeqLoop items items' (items.length - 1)
                (some [(vn, mkKSequence (KList.drop (items.length - 1) items'))])
        | _ => .ok none
      else .ok none) = .ok (some S) := h
  have hle : ¬ items'.length = items.length := by omega
  rw [if_neg hle] at h2
  have hv : (0 < items.length && items.length < items'.length) = true := by
    simp only [Bool.and_eq_true, decide_eq_true_eq]
    exact ⟨h0, hlt⟩
  rw [if_pos hv] at h2
  cases hlast : items.getLast? with
  | none =>
      rw [hlast] at h2
      exact (okNone_ne h2).elim
  | some x =>
      rw [hlast] at h2
      cases x with
      | kvariable vn vso =>
          have h3 : (if seqVarReuse items (items.length - 1) vn = true then
              (.ok none : Except String (Option Subst))
            else
              matchSeqLoop items items' (items.length - 1)
                (some [(vn, mkKSequence
                  (KList.drop (items.length - 1) items'))])) = .ok (some S) := h2
          by_cases hreuse : seqVarReuse items (items.length - 1) vn = true
          · rw [if_pos hreuse] at h3
            exact (okNone_ne h3).elim
          · rw [if_neg hreuse] at h3
            refine ⟨vn, vso, rfl, by simpa using hreuse, ?_⟩
            exact seqLoopPreserves items items' (items.length - 1)
              [(vn, mkKSequence (KList.drop (items.length - 1) items'))] S
              (List.nodup_singleton vn) h3 vn _
              (by rw [Subst.get_singleton, if_pos rfl])
      | ktoken v' so' => exact (okNone_ne h2).elim
      | kapply l' args' => exact (okNone_ne h2).elim
      | kas p' a' => exact (okNone_ne h2).elim
      | krewrite l' r' => exact (okNone_ne h2).elim
      | ksequence xs' => exact (okNone_ne h2).elim

/-- C6, refuting the "reject reuse anywhere in the pattern" clause: the
pattern sequence `f(x) ~> x` reuses the tail variable `x` inside its first
item, yet matching it against `f(c) ~> a ~> b` is accepted, binding `x` to
the tail `a ~> b` (the conflicting inner binding of `x` to `c` is then
swallowed by the vacuous union conflict check). -/
theorem C6_counterexample :
    matchK
        (KInner.ksequence
          (.cons (KInner.kapply ⟨"f", []⟩ (.cons (.kvariable "x" none) .nil))
            (.cons (.kvariable "x" none) .nil)))
        (KInner.ksequence
          (.cons (KInner.kapply ⟨"f", []⟩ (.cons (.ktoken "c" ⟨"S"⟩) .nil))
            (.cons (.ktoken "a" ⟨"S"⟩) (.cons (.ktoken "b" ⟨"S"⟩) .nil)))) =
      .ok (some [("x", KInner.ksequence
        (.cons (.ktoken "a" ⟨"S"⟩) (.cons (.ktoken "b" ⟨"S"⟩) .nil)))]) ∧
    "x" ∈ varNamesK (KInner.kapply ⟨"f", []⟩ (.cons (.kvariable "x" none) .nil)) := by
  exact ⟨rfl, by decide⟩

/-- C6 witness: the pattern sequence `y ~> x` against `a ~> b ~> c`; the
tail variable `x` captures `b ~> c`. -/
theorem C6_variadic_tail_witness :
    0 < (KList.cons (KInner.kvariable "y" none)
      (.cons (.kvariable "x" none) .nil)).length ∧
    (KList.cons (KInner.kvariable "y" none)
      (.cons (.kvariable "x" none) .nil)).length <
      (KList.cons (KInner.ktoken "a" ⟨"S"⟩)
        (.cons (.ktoken "b" ⟨"S"⟩) (.cons (.ktoken "c" ⟨"S"⟩) .nil))).length ∧
    matchK
        (KInner.ksequence (KList.cons (KInner.kvariable "y" none)
          (.cons (.kvariable "x" none) .nil)))
        (KInner.ksequence (KList.cons (KInner.ktoken "a" ⟨"S"⟩)
          (.cons (.ktoken "b" ⟨"S"⟩) (.cons (.ktoken "c" ⟨"S"⟩) .nil)))) =
      .ok (some [("x", KInner.ksequence
          (.cons (.ktoken "b" ⟨"S"⟩) (.cons (.ktoken "c" ⟨"S"⟩) .nil))),
        ("y", KInner.ktoken "a" ⟨"S"⟩)]) ∧
    (∃ vn vso,
      (KList.cons (KInner.kvariable "y" none)
        (.cons (.kvariable "x" none) .nil)).getLast? =
          some (KInner.kvariable vn vso) ∧
      seqVarReuse (KList.cons (KInner.kvariable "y" none)
        (.cons (.kvariable "x" none) .nil))
        ((KList.cons (KInner.kvariable "y" none)
          (.cons (.kvariable "x" none) .nil)).length - 1) vn = false ∧
      Subst.get [("x", KInner.ksequence
          (.cons (.ktoken "b" ⟨"S"⟩) (.cons (.ktoken "c" ⟨"S"⟩) .nil))),
        ("y", KInner.ktoken "a" ⟨"S"⟩)] vn =
        some (mkKSequence (KList.drop
          ((KList.cons (KInner.kvariable "y" none)
            (.cons (.kvariable "x" none) .nil)).length - 1)
          (KList.cons (KInner.ktoken "a" ⟨"S"⟩)
            (.cons (.ktoken "b" ⟨"S"⟩) (.cons (.ktoken "c" ⟨"S"⟩) .nil)))))) := by
  refine ⟨by decide, by decide, rfl, ?_⟩
  exact C6_variadic_tail
    (KList.cons (KInner.kvariable "y" none) (.cons (.kvariable "x" none) .nil))
    (KList.cons (KInner.ktoken "a" ⟨"S"⟩)
      (.cons (.ktoken "b" ⟨"S"⟩) (.cons (.ktoken "c" ⟨"S"⟩) .nil)))
    [("x", KInner.ksequence
        (.cons (.ktoken "b" ⟨"S"⟩) (.cons (.ktoken "c" ⟨"S"⟩) .nil))),
      ("y", KInner.ktoken "a" ⟨"S"⟩)]
    (by decide) (by decide) rfl

/-! ### `extractSubst` (`src/kast/manip.ts`) -/

/-- Is the term a `KVariable` whose name is already bound in the
substitution being built (`term instanceof KVariable && term.name in subst`). -/
def isBoundVar (subst : Subst) : KInner → Bool
  | .kvariable n _ => (Subst.get subst n).isSome
  | _ => false

/-- Models the inner helper `extractSubstInner` of `extractSubst`: try to
read one binding off an equality's two operands.  A variable operand that is
not yet bound, whose partner is not an already-bound variable and does not
contain it free, is bound to the partner (left operand preferred); a `TRUE`
operand whose partner is a `_==K_`/`_==Int_` application recurses into that
application's first two arguments (the source's `term1 === TRUE` reference
comparison is structural equality under this file's convention).  The fuel
argument bounds the recursion depth; `sizeK` of the operands is always
enough.  Argument lists of such applications with fewer than two entries
return no binding (the source would fault reading `args[0]!`/`args[1]!`;
no caller builds them). -/
def esInner (subst : Subst) : Nat → KInner → KInner → Option (String × KInner)
  | 0, _, _ => none
  | fuel + 1, t1, t2 =>
      let g1 : Option (String × KInner) :=
        match t1 with
        | .kvariable n _ =>
            if (Subst.get subst n).isNone && !(isBoundVar subst t2)
                && !((varNamesK t2).contains n) then some (n, t2) else none
        | _ => none
      match g1 with
      | some r => some r
      | none =>
        let g2 : Option (String × KInner) :=
          match t2 with
          | .kvariable m _ =>
              if (Subst.get subst m).isNone && !(isBoundVar subst t1)
                  && !((varNamesK t1).contains m) then some (m, t1) else none
          | _ => none
        match g2 with
        | some r => some r
        | none =>
          if t1 = TRUE then
            match t2 with
            | .kapply l args =>
                if l.name = "_==K_" || l.name = "_==Int_" then
                  match args.get? 0, args.get? 1 with
                  | some a, some b => esInner subst fuel a b
                  | _, _ => none
                else none
            | _ => none
          else if t2 = TRUE then
            match t1 with
            | .kapply l args =>
                if l.name = "_==K_" || l.name = "_==Int_" then
                  match args.get? 0, args.get? 1 with
                  | some a, some b => esInner subst fuel a b
                  | _, _ => none
                else none
            | _ => none
          else none

/-- Models `extractSubst`: flatten the `#And` conjunction, walk the
conjuncts once in order, turning each extractable `#Equals` conjunct into a
binding of the substitution built so far and keeping every other conjunct as
a residual; return the original term for a single unextractable conjunct,
`mlTop()` when nothing remains, and the `#And` of the residuals otherwise. -/
def extractSubst (term : KInner) : Subst × KInner :=
  let step : Subst × List KInner → KInner → Subst × List KInner :=
    fun acc conjunct =>
      match conjunct with
      | .kapply l args =>
          if l.name = "#Equals" then
            match args.get? 0, args.get? 1 with
            | some a, some b =>
                match esInner acc.1 (sizeK a + sizeK b) a b with
                | some (n, v) => (acc.1 ++ [(n, v)], acc.2)
                | none => (acc.1, acc.2 ++ [conjunct])
            | _, _ => (acc.1, acc.2 ++ [conjunct])
          else (acc.1, acc.2 ++ [conjunct])
      | _ => (acc.1, acc.2 ++ [conjunct])
  let flattenedTerms := flattenLabel "#And" term
  let res := flattenedTerms.foldl step ([], [])
  if flattenedTerms.length = 1 ∧ res.1 = [] then ([], term)
  else if res.2 = [] then (res.1, mlTop)
  else (res.1, mlAnd res.2)

/-! ### Claim C3 -/

/-- C3 (amended): `extractSubst` on `Equals(X, a) ∧ Equals(Y, f(X))`
extracts BOTH conjuncts, returning `{X: a, Y: f(X)}` with residual
`mlTop()`: the occurs check of `extractSubstInner` only rejects a binding
whose value contains the variable being bound itself (or whose operand is a
variable already bound), so `Y ↦ f(X)` is extracted even though `f(X)`
mentions the just-bound `X`.  Conjuncts that really are unextractable — a
self-referential `Equals(Y, g(Y))`, or an equality with no variable
operand — are kept as residual.  The single-pass result claimed by the
original — `{X: a}` with residual `Equals(Y, f(X))` — is refuted by
`C3_counterexample`. -/
theorem C3_extractSubst_single_pass :
    extractSubst (mlAnd [mlEquals (KInner.kvariable "X" none) (.ktoken "a" ⟨"S"⟩),
        mlEquals (KInner.kvariable "Y" none)
          (KInner.kapply ⟨"f", []⟩ (.cons (.kvariable "X" none) .nil))]) =
      ([("X", KInner.ktoken "a" ⟨"S"⟩),
        ("Y", KInner.kapply ⟨"f", []⟩ (.cons (.kvariable "X" none) .nil))],
       mlTop GENERATED_TOP_CELL) ∧
    extractSubst (mlAnd [mlEquals (KInner.kvariable "X" none) (.ktoken "a" ⟨"S"⟩),
        mlEquals (KInner.kvariable "Y" none)
          (KInner.kapply ⟨"g", []⟩ (.cons (.kvariable "Y" none) .nil))]) =
      ([("X", KInner.ktoken "a" ⟨"S"⟩)],
       mlAnd [mlEquals (KInner.kvariable "Y" none)
         (KInner.kapply ⟨"g", []⟩ (.cons (.kvariable "Y" none) .nil))]) ∧
    extractSubst (mlAnd [mlEquals (KInner.kvariable "X" none) (.ktoken "a" ⟨"S"⟩),
        mlEquals (KInner.kapply ⟨"f", []⟩ (.cons (.kvariable "X" none) .nil))
          (.ktoken "b" ⟨"S"⟩)]) =
      ([("X", KInner.ktoken "a" ⟨"S"⟩)],
       mlAnd [mlEquals (KInner.kapply ⟨"f", []⟩ (.cons (.kvariable "X" none) .nil))
         (.ktoken "b" ⟨"S"⟩)]) := by
  decide

/-- C3, refuting the original claim: on `Equals(X, a) ∧ Equals(Y, f(X))`
the result is not `({X: a}, Equals(Y, f(X)))` — the second conjunct IS
turned into the binding `Y ↦ f(X)`. -/
theorem C3_counterexample :
    extractSubst (mlAnd [mlEquals (KInner.kvariable "X" none) (.ktoken "a" ⟨"S"⟩),
        mlEquals (KInner.kvariable "Y" none)
          (KInner.kapply ⟨"f", []⟩ (.cons (.kvariable "X" none) .nil))]) ≠
      ([("X", KInner.ktoken "a" ⟨"S"⟩)],
       mlEquals (KInner.kvariable "Y" none)
         (KInner.kapply ⟨"f", []⟩ (.cons (.kvariable "X" none) .nil))) ∧
    (extractSubst (mlAnd [mlEquals (KInner.kvariable "X" none) (.ktoken "a" ⟨"S"⟩),
        mlEquals (KInner.kvariable "Y" none)
          (KInner.kapply ⟨"f", []⟩ (.cons (.kvariable "X" none) .nil))])).1.length
      = 2 := by
  decide

/-! ### `Subst.from_pred` (`src/kast/outer_syntax.ts`) -/

/-- JS `Record` assignment: update the value in place if the key exists,
else append. -/
def recordSet : Subst → String × KInner → Subst
  | [], kv => [kv]
  | (k, v) :: rest, kv => if k = kv.1 then (k, kv.2) :: rest else (k, v) :: recordSet rest kv

/-- Is the term a `#Or` application (the connective `from_pred` rejects up
front). -/
def isOrApp : KInner → Bool
  | .kapply l _ => l.name == "#Or"
  | _ => false

/-- Walk the flattened conjuncts of `from_pred`: a `#Equals` application of
exactly two arguments whose FIRST operand is a variable binds that variable
to the second operand (JS `Record` assignment); every other conjunct throws.
The source's `else if` branch for boolean-equality-to-true wrappers repeats
the condition of the first branch and is unreachable. -/
def fromPredGo (subst : Subst) : List KInner → Except String Subst
  | [] => .ok subst
  | conjunct :: rest =>
      match conjunct with
      | .kapply l (.cons (.kvariable n _) (.cons rhs .nil)) =>
          if l.name = "#Equals" then fromPredGo (recordSet subst (n, rhs)) rest
          else .error "Invalid substitution predicate"
      | _ => .error "Invalid substitution predicate"

/-- Models `Subst.from_pred`: reject a top-level `#Or`, then extract a
binding from every conjunct of the flattened `#And`, throwing on any
conjunct that is not an equality with a variable first operand. -/
def from_pred (pred : KInner) : Except String Subst :=
  if isOrApp pred then .error "Invalid substitution predicate: wrong connective"
  else fromPredGo [] (flattenLabel "#And" pred)

/-- Did the `Except` computation succeed. -/
def exceptOk {α : Type} : Except String α → Bool
  | .ok _ => true
  | .error _ => false

/-- The conjunct shape `from_pred` accepts: `#Equals` applied to exactly a
variable and one further argument, in that order. -/
def validPredConjunct : KInner → Bool
  | .kapply l (.cons (.kvariable _ _) (.cons _ .nil)) => l.name == "#Equals"
  | _ => false

theorem fromPredGo_isOk : ∀ (l : List KInner) (subst : Subst),
    exceptOk (fromPredGo subst l) = l.all validPredConjunct
  | [], _ => rfl
  | c :: rest, subst => by
      cases c with
      | kapply lb args =>
          cases args with
          | nil => simp [fromPredGo, validPredConjunct, exceptOk]
          | cons a args2 =>
              cases a with
              | kvariable n so =>
                  cases args2 with
                  | nil => simp [fromPredGo, validPredConjunct, exceptOk]
                  | cons rhs args3 =>
                      cases args3 with
                      | nil =>
                          by_cases hn : lb.name = "#Equals"
                          · simp [fromPredGo, validPredConjunct, hn,
                              fromPredGo_isOk rest (recordSet subst (n, rhs))]
                          · simp [fromPredGo, validPredConjunct, exceptOk, hn]
                      | cons d args4 => simp [fromPredGo, validPredConjunct, exceptOk]
              | ktoken v s2 => simp [fromPredGo, validPredConjunct, exceptOk]
              | kapply l2 a2 => simp [fromPredGo, validPredConjunct, exceptOk]
              | kas p2 a2 => simp [fromPredGo, validPredConjunct, exceptOk]
              | krewrite l2 r2 => simp [fromPredGo, validPredConjunct, exceptOk]
              | ksequence i2 => simp [fromPredGo, validPredConjunct, exceptOk]
      | ktoken v s => simp [fromPredGo, validPredConjunct, exceptOk]
      | kvariable n so => simp [fromPredGo, validPredConjunct, exceptOk]
      | kas p a => simp [fromPredGo, validPredConjunct, exceptOk]
      | krewrite l r => simp [fromPredGo, validPredConjunct, exceptOk]
      | ksequence items => simp [fromPredGo, validPredConjunct, exceptOk]

/-! ### Claim C7 -/

/-- C7 (amended): `from_pred` succeeds exactly when the predicate is not a
top-level `#Or` and EVERY flattened conjunct is a two-argument `#Equals`
whose FIRST operand is a variable.  The original claim's acceptance of
either operand order and of boolean-equality-to-true wrappers is refuted by
`C7_counterexample`: the wrapper branch of the source repeats the condition
of the branch before it and is unreachable, so a variable in second operand
position, or an `mlEqualsTrue` wrapper, raises. -/
theorem C7_from_pred_first_operand_only (pred : KInner) :
    exceptOk (from_pred pred) =
      (!(isOrApp pred) && (flattenLabel "#And" pred).all validPredConjunct) := by
  by_cases h : isOrApp pred = true
  · simp [from_pred, h, exceptOk]
  · simp [from_pred, h, fromPredGo_isOk]

/-- C7, refuting the either-operand-order and wrapper clauses: the variable
as second operand raises, the `mlEqualsTrue` wrapper raises, while the
variable-first form succeeds and binds the conjuncts in order. -/
theorem C7_counterexample :
    exceptOk (from_pred (mlEquals (.ktoken "b" ⟨"S"⟩) (.kvariable "X" none))) = false ∧
    exceptOk (from_pred (mlEqualsTrue
      (eqKApp (.kvariable "X" none) (.ktoken "b" ⟨"S"⟩)))) = false ∧
    exceptOk (from_pred (mlOr [mlEquals (.kvariable "X" none) (.ktoken "b" ⟨"S"⟩),
      mlEquals (.kvariable "Y" none) (.ktoken "c" ⟨"S"⟩)])) = false ∧
    from_pred (mlAnd [mlEquals (.kvariable "X" none) (.ktoken "b" ⟨"S"⟩),
        mlEquals (.kvariable "Y" none) (.ktoken "c" ⟨"S"⟩)]) =
      .ok [("X", KInner.ktoken "b" ⟨"S"⟩), ("Y", KInner.ktoken "c" ⟨"S"⟩)] := by
  refine ⟨rfl, rfl, ?_, rfl⟩
  rfl

/-! ### `toDict` / `fromDict` (`src/kast/outer_syntax.ts`) -/

mutual
/-- The shape of the dictionaries `KInner.toDict` writes: one constructor
per `node` tag, one field per key the corresponding `_toDict` sets (sorts
and labels are carried by their `name`/`params` content; `KInner.fromDict`
on any other JSON throws and is outside this development). -/
inductive DDict : Type where
  | dtoken (token : String) (sort : String)
  | dvariable (name : String) (sort : Option String)
  | dapply (label : String) (params : List String) (args : DList) (arity : Nat)
      (varFlag : Bool)
  | das (pat ali : DDict)
  | drewrite (lhs rhs : DDict)
  | dsequence (items : DList) (arity : Nat)
  deriving Repr

/-- A JSON array of term dictionaries. -/
inductive DList : Type where
  | nil
  | cons (h : DDict) (t : DList)
  deriving Repr
end

mutual
/-- Models `KInner.toDict` (each variant's `_toDict` over the recursively
serialized children). -/
def toDictK : KInner → DDict
  | .ktoken v s => .dtoken v s.name
  | .kvariable n so => .dvariable n (so.map KSort.name)
  | .kapply l args => .dapply l.name (l.params.map KSort.name) (toDictKL args)
      args.length false
  | .kas p a => .das (toDictK p) (toDictK a)
  | .krewrite l r => .drewrite (toDictK l) (toDictK r)
  | .ksequence items => .dsequence (toDictKL items) items.length

def toDictKL : KList → DList
  | .nil => .nil
  | .cons h t => .cons (toDictK h) (toDictKL t)
end

mutual
/-- Models `KInner.fromDict`: dispatch on the `node` tag and rebuild through
each variant's `_fromDict`, i.e. through the source constructors — in
particular the `KSequence` constructor flattens one level of directly nested
sequences, and the stored `arity`/`variable` fields are ignored. -/
def fromDict : DDict → KInner
  | .dtoken t s => .ktoken t ⟨s⟩
  | .dvariable n so => .kvariable n (so.map (fun s => ⟨s⟩))
  | .dapply l ps args _ _ => .kapply ⟨l, ps.map (fun s => ⟨s⟩)⟩ (fromDictL args)
  | .das p a => .kas (fromDict p) (fromDict a)
  | .drewrite l r => .krewrite (fromDict l) (fromDict r)
  | .dsequence items _ => mkKSequence (fromDictL items)

def fromDictL : DList → KList
  | .nil => .nil
  | .cons h t => .cons (fromDict h) (fromDictL t)
end

mutual
/-- Round trip of serialization on flat terms (every term built through the
source constructors is flat: the `KSequence` constructor flattens). -/
theorem fromDict_toDict : ∀ t : KInner, KInner.flatB t = true →
    fromDict (toDictK t) = t
  | .ktoken v s, _ => rfl
  | .kvariable n so, _ => by
      show KInner.kvariable n ((so.map KSort.name).map (fun s => ⟨s⟩)) = _
      cases so <;> rfl
  | .kapply l args, hf => by
      show KInner.kapply ⟨l.name, (l.params.map KSort.name).map (fun s => ⟨s⟩)⟩
        (fromDictL (toDictKL args)) = _
      rw [fromDictL_toDictL args hf]
      clear hf
      congr 1
      · cases l with
        | mk nm ps =>
            show (⟨nm, (ps.map KSort.name).map (fun s => ⟨s⟩)⟩ : KLabel) = ⟨nm, ps⟩
            congr 1
            induction ps with
            | nil => rfl
            | cons p pt ih =>
                show KSort.mk p.name :: (pt.map KSort.name).map (fun s => ⟨s⟩) = p :: pt
                rw [ih]
  | .kas p a, hf => by
      have hf2 : (KInner.flatB p && KInner.flatB a) = true := hf
      simp only [Bool.and_eq_true] at hf2
      show KInner.kas (fromDict (toDictK p)) (fromDict (toDictK a)) = _
      rw [fromDict_toDict p hf2.1, fromDict_toDict a hf2.2]
  | .krewrite l r, hf => by
      have hf2 : (KInner.flatB l && KInner.flatB r) = true := hf
      simp only [Bool.and_eq_true] at hf2
      show KInner.krewrite (fromDict (toDictK l)) (fromDict (toDictK r)) = _
      rw [fromDict_toDict l hf2.1, fromDict_toDict r hf2.2]
  | .ksequence items, hf => by
      have hf2 : (KInner.flatBL items && KInner.noSeqTop items) = true := hf
      simp only [Bool.and_eq_true] at hf2
      show mkKSequence (fromDictL (toDictKL items)) = _
      rw [fromDictL_toDictL items hf2.1]
      show KInner.ksequence (flattenOnceL items) = _
      rw [flattenOnce_of_noSeq items hf2.2]

theorem fromDictL_toDictL : ∀ l : KList, KInner.flatBL l = true →
    fromDictL (toDictKL l) = l
  | .nil, _ => rfl
  | .cons h t, hf => by
      have hf2 : (KInner.flatB h && KInner.flatBL t) = true := hf
      simp only [Bool.and_eq_true] at hf2
      show KList.cons (fromDict (toDictK h)) (fromDictL (toDictKL t)) = _
      rw [fromDict_toDict h hf2.1, fromDictL_toDictL t hf2.2]
end

/-! ### Claim C4 -/

/-- C4: serialization round-trips: for every flat term — and every term
built through the source constructors is flat, the `KSequence` constructor
flattening directly nested sequences — `KInner.fromDict(x.toDict())` is
structurally equal to `x`, over all variants including sortless variables,
zero-arity applications and sequences of any length. -/
theorem C4_round_trip (t : KInner) (hf : KInner.flatB t = true) :
    fromDict (toDictK t) = t :=
  fromDict_toDict t hf

/-- C4 witness: round trip of a sequence holding a zero-arity application, a
sortless variable, a sorted variable, a token, an alias and a rewrite. -/
theorem C4_round_trip_witness :
    KInner.flatB (KInner.ksequence
      (.cons (.kapply ⟨"nil", [⟨"P"⟩]⟩ .nil)
        (.cons (.kvariable "x" none)
          (.cons (.kvariable "y" (some ⟨"Int"⟩))
            (.cons (.ktoken "1" ⟨"Int"⟩)
              (.cons (.kas (.kvariable "p" none) (.kvariable "a" none))
                (.cons (.krewrite (.ktoken "l" ⟨"S"⟩) (.ktoken "r" ⟨"S"⟩))
                  .nil))))))) = true ∧
    fromDict (toDictK (KInner.ksequence
      (.cons (.kapply ⟨"nil", [⟨"P"⟩]⟩ .nil)
        (.cons (.kvariable "x" none)
          (.cons (.kvariable "y" (some ⟨"Int"⟩))
            (.cons (.ktoken "1" ⟨"Int"⟩)
              (.cons (.kas (.kvariable "p" none) (.kvariable "a" none))
                (.cons (.krewrite (.ktoken "l" ⟨"S"⟩) (.ktoken "r" ⟨"S"⟩))
                  .nil)))))))) =
      KInner.ksequence
        (.cons (.kapply ⟨"nil", [⟨"P"⟩]⟩ .nil)
          (.cons (.kvariable "x" none)
            (.cons (.kvariable "y" (some ⟨"Int"⟩))
              (.cons (.ktoken "1" ⟨"Int"⟩)
                (.cons (.kas (.kvariable "p" none) (.kvariable "a" none))
                  (.cons (.krewrite (.ktoken "l" ⟨"S"⟩) (.ktoken "r" ⟨"S"⟩))
                    .nil)))))) := by
  refine ⟨rfl, ?_⟩
  exact C4_round_trip (KInner.ksequence
    (.cons (.kapply ⟨"nil", [⟨"P"⟩]⟩ .nil)
      (.cons (.kvariable "x" none)
        (.cons (.kvariable "y" (some ⟨"Int"⟩))
          (.cons (.ktoken "1" ⟨"Int"⟩)
            (.cons (.kas (.kvariable "p" none) (.kvariable "a" none))
              (.cons (.krewrite (.ktoken "l" ⟨"S"⟩) (.ktoken "r" ⟨"S"⟩))
                .nil))))))) rfl

/-! ### CTerm (`cterm.ts`), its constraint normalization and sort key -/

/-- JSON string escaping as `JSON.stringify` performs it on the name strings
appearing here (quote and backslash; control characters do not occur in this
development). -/
def jsonEscape (s : String) : String :=
  ⟨s.data.foldr (fun c acc => if c = '"' || c = '\\' then '\\' :: c :: acc else c :: acc) []⟩

/-- A JSON string literal. -/
def jsonQuote (s : String) : String := "\"" ++ jsonEscape s ++ "\""

/-- The JSON text of a serialized sort. -/
def jsonSortStr (s : String) : String :=
  "\x7b\"node\":\"KSort\",\"name\":" ++ jsonQuote s ++ "\x7d"

mutual
/-- The exact JSON text `JSON.stringify(mapToObject(dict))` produces for a
term dictionary (`toJson` of the `KAst` base class): keys in the insertion
order of each `_toDict`. -/
def jsonOfD : DDict → String
  | .dtoken token sort =>
      "\x7b\"node\":\"KToken\",\"token\":" ++ jsonQuote token ++
        ",\"sort\":" ++ jsonSortStr sort ++ "\x7d"
  | .dvariable name so =>
      "\x7b\"node\":\"KVariable\",\"name\":" ++ jsonQuote name ++
        (match so with
         | some s => ",\"sort\":" ++ jsonSortStr s
         | none => "") ++ "\x7d"
  | .dapply label params args arity varFlag =>
      "\x7b\"node\":\"KApply\",\"label\":\x7b\"node\":\"KLabel\",\"name\":" ++
        jsonQuote label ++ ",\"params\":[" ++
        String.intercalate "," (params.map jsonSortStr) ++ "]\x7d,\"args\":[" ++
        jsonOfDL args ++ "],\"arity\":" ++ Nat.repr arity ++ ",\"variable\":" ++
        (if varFlag then "true" else "false") ++ "\x7d"
  | .das p a =>
      "\x7b\"node\":\"KAs\",\"pattern\":" ++ jsonOfD p ++
        ",\"alias\":" ++ jsonOfD a ++ "\x7d"
  | .drewrite l r =>
      "\x7b\"node\":\"KRewrite\",\"lhs\":" ++ jsonOfD l ++
        ",\"rhs\":" ++ jsonOfD r ++ "\x7d"
  | .dsequence items arity =>
      "\x7b\"node\":\"KSequence\",\"items\":[" ++ jsonOfDL items ++
        "],\"arity\":" ++ Nat.repr arity ++ "\x7d"

/-- Comma-separated JSON texts of an array's entries. -/
def jsonOfDL : DList → String
  | .nil => ""
  | .cons h .nil => jsonOfD h
  | .cons h t => jsonOfD h ++ "," ++ jsonOfDL t
end

/-- Models `term.toString()` of the `KAst` base class:
`JSON.stringify(term.toJson())`, i.e. the quoted-and-escaped form of the
JSON text of `term.toDict()`. -/
def termString (t : KInner) : String := jsonQuote (jsonOfD (toDictK t))

/-- `"s".padStart(w, "0")`. -/
def padZeros (w : Nat) (s : String) : String :=
  ⟨List.replicate (w - s.length) '0'⟩ ++ s

/-- Models `CTerm._constraintSortKey`: the term's string form prefixed with
its zero-padded length. -/
def sortKeyK (t : KInner) : String :=
  padZeros 10 (Nat.repr (termString t).length) ++ "_" ++ termString t

/-- Code-point comparison of strings, the embedding of `localeCompare` for
the ASCII JSON texts compared here. -/
def strLeB : List Char → List Char → Bool
  | [], _ => true
  | _ :: _, [] => false
  | a :: as, b :: bs =>
      if a.toNat < b.toNat then true
      else if a.toNat = b.toNat then strLeB as bs
      else false

/-- The comparator `CTerm._normalizeConstraints` sorts by. -/
def keyLe (a b : KInner) : Bool := strLeB (sortKeyK a).data (sortKeyK b).data

/-- Insert into a sorted list (the element order `Array.prototype.sort`
settles on; ties cannot arise between deduplicated constraints, whose keys
are their serializations). -/
def insortK (x : KInner) : List KInner → List KInner
  | [] => [x]
  | h :: t => if keyLe x h then x :: h :: t else h :: insortK x t

/-- Sort a constraint list by `sortKeyK`. -/
def sortConstraints : List KInner → List KInner
  | [] => []
  | h :: t => insortK h (sortConstraints t)

/-- Models `isSpuriousConstraint`: a `#Equals` whose first two argument
slots coincide (`===` is structural equality per this file's convention;
for a zero-argument `#Equals` both slots read JS `undefined` and the test
succeeds), or a weakly-top term. -/
def isSpuriousConstraint (t : KInner) : Bool :=
  (match t with
   | .kapply l args =>
       l.name == "#Equals" &&
         (match args.get? 0, args.get? 1 with
          | some a, some b => a == b
          | none, none => true
          | _, _ => false)
   | _ => false) ||
  isTopW t

/-- Models `normalizeConstraints`: flatten every constraint over `#And`,
deduplicate keeping first occurrences, drop the spurious ones. -/
def normalizeConstraints (constraints : List KInner) : List KInner :=
  let constraintList :=
    constraints.foldl (fun acc c => acc ++ flattenLabel "#And" c) []
  (uniqueL constraintList).filter (fun c => !isSpuriousConstraint c)

/-- Models `KApply.isCell`: the label name is bracketed by `<` and `>`. -/
def isCellName (s : String) : Bool :=
  1 < s.length && s.data.head? == some '<' && s.data.getLast? == some '>'

/-- Is the configuration a cell application (`CTerm._checkConfig`). -/
def isCellConfig : KInner → Bool
  | .kapply l _ => isCellName l.name
  | _ => false

/-- A symbolic state: configuration plus constraints (`cterm.ts`). -/
structure CTerm where
  config : KInner
  constraints : List KInner
  deriving DecidableEq, Repr

/-- Models the `CTerm` constructor: a weakly-top configuration collapses to
the bare `mlTop()` sentinel, silently DISCARDING every supplied constraint;
a weakly-bottom one collapses likewise to `mlBottom()`; otherwise the
configuration must be a cell application and the constraints are flattened,
deduplicated, filtered and sorted.  `Except.error` models the thrown
`Expected cell label` error. -/
def mkCTerm (config : KInner) (constraints : List KInner) : Except String CTerm :=
  if isTopW config then .ok ⟨mlTop, []⟩
  else if isBottomW config then .ok ⟨mlBottom, []⟩
  else if isCellConfig config then
    .ok ⟨config, sortConstraints (normalizeConstraints constraints)⟩
  else .error "Expected cell label"

/-! ### Sorting and normalization lemmas -/

theorem strLeB_total : ∀ a b : List Char, strLeB a b = true ∨ strLeB b a = true
  | [], _ => Or.inl rfl
  | _ :: _, [] => Or.inr rfl
  | a :: as, b :: bs => by
      by_cases h1 : a.toNat < b.toNat
      · exact Or.inl (by simp [strLeB, h1])
      · by_cases h2 : a.toNat = b.toNat
        · cases strLeB_total as bs with
          | inl h => exact Or.inl (by simp [strLeB, h1, h2, h])
          | inr h =>
              refine Or.inr (by simp [strLeB, h2, h] <;> omega)
        · have h3 : b.toNat < a.toNat := by omega
          exact Or.inr (by simp [strLeB, h3])

theorem keyLe_total (a b : KInner) : keyLe a b = true ∨ keyLe b a = true :=
  strLeB_total (sortKeyK a).data (sortKeyK b).data

theorem insortK_perm : ∀ (x : KInner) (l : List KInner),
    List.Perm (insortK x l) (x :: l)
  | _, [] => List.Perm.refl _
  | x, h :: t => by
      show List.Perm (if keyLe x h then x :: h :: t else h :: insortK x t) _
      by_cases hc : keyLe x h = true
      · rw [if_pos hc]
      · rw [if_neg hc]
        exact ((insortK_perm x t).cons h).trans (List.Perm.swap x h t)

theorem sortConstraints_perm : ∀ l : List KInner,
    List.Perm (sortConstraints l) l
  | [] => List.Perm.refl _
  | h :: t => (insortK_perm h (sortConstraints t)).trans
      ((sortConstraints_perm t).cons h)

theorem chain'_insortK : ∀ (x : KInner) (l : List KInner),
    List.Chain' (fun a b => keyLe a b = true) l →
    List.Chain' (fun a b => keyLe a b = true) (insortK x l)
  | x, [], _ => List.chain'_singleton x
  | x, h :: t, hch => by
      show List.Chain' _ (if keyLe x h then x :: h :: t else h :: insortK x t)
      by_cases hc : keyLe x h = true
      · rw [if_pos hc]
        exact hch.cons hc
      · rw [if_neg hc]
        have hhx : keyLe h x = true := (keyLe_total x h).resolve_left hc
        cases t with
        | nil => exact List.chain'_pair.mpr hhx
        | cons h2 t2 =>
            have hht := List.chain'_cons.mp hch
            have hrec := chain'_insortK x (h2 :: t2) hht.2
            show List.Chain' _ (h :: insortK x (h2 :: t2))
            by_cases hc2 : keyLe x h2 = true
            · rw [show insortK x (h2 :: t2) = x :: h2 :: t2 from by
                simp [insortK, hc2]]
              exact List.chain'_cons.mpr ⟨hhx, List.chain'_cons.mpr ⟨hc2, hht.2⟩⟩
            · rw [show insortK x (h2 :: t2) = h2 :: insortK x t2 from by
                simp [insortK, hc2]]
              rw [show insortK x (h2 :: t2) = h2 :: insortK x t2 from by
                simp [insortK, hc2]] at hrec
              exact List.chain'_cons.mpr ⟨hht.1, hrec⟩

theorem chain'_sortConstraints : ∀ l : List KInner,
    List.Chain' (fun a b => keyLe a b = true) (sortConstraints l)
  | [] => List.chain'_nil
  | h :: t => chain'_insortK h (sortConstraints t) (chain'_sortConstraints t)

theorem uniqueGo_not_seen : ∀ (seen l : List KInner) (x : KInner),
    x ∈ uniqueGo seen l → x ∉ seen
  | seen, h :: t, x, hx => by
      show x ∉ seen
      by_cases hs : h ∈ seen
      · rw [show uniqueGo seen (h :: t) = uniqueGo seen t from by
          simp [uniqueGo, hs]] at hx
        exact uniqueGo_not_seen seen t x hx
      · rw [show uniqueGo seen (h :: t) = h :: uniqueGo (h :: seen) t from by
          simp [uniqueGo, hs]] at hx
        cases hx with
        | head => exact hs
        | tail _ hx =>
            have := uniqueGo_not_seen (h :: seen) t x hx
            exact fun hmem => this (List.mem_cons_of_mem h hmem)

theorem uniqueGo_nodup : ∀ (seen l : List KInner), (uniqueGo seen l).Nodup
  | _, [] => List.nodup_nil
  | seen, h :: t => by
      by_cases hs : h ∈ seen
      · rw [show uniqueGo seen (h :: t) = uniqueGo seen t from by
          simp [uniqueGo, hs]]
        exact uniqueGo_nodup seen t
      · rw [show uniqueGo seen (h :: t) = h :: uniqueGo (h :: seen) t from by
          simp [uniqueGo, hs]]
        refine List.nodup_cons.mpr ⟨?_, uniqueGo_nodup (h :: seen) t⟩
        intro hmem
        exact uniqueGo_not_seen (h :: seen) t h hmem (List.mem_cons_self h seen)

theorem uniqueGo_subset : ∀ (seen l : List KInner) (x : KInner),
    x ∈ uniqueGo seen l → x ∈ l
  | seen, h :: t, x, hx => by
      by_cases hs : h ∈ seen
      · rw [show uniqueGo seen (h :: t) = uniqueGo seen t from by
          simp [uniqueGo, hs]] at hx
        exact List.mem_cons_of_mem h (uniqueGo_subset seen t x hx)
      · rw [show uniqueGo seen (h :: t) = h :: uniqueGo (h :: seen) t from by
          simp [uniqueGo, hs]] at hx
        cases hx with
        | head => exact List.mem_cons_self h t
        | tail _ hx => exact List.mem_cons_of_mem h (uniqueGo_subset (h :: seen) t x hx)

mutual
/-- Every element `flattenLabel` returns is free of the flattened label at
its own head. -/
theorem flattenLabel_not_label : ∀ (label : String) (t x : KInner),
    x ∈ flattenLabel label t → ∀ l args, x = KInner.kapply l args → l.name ≠ label
  | label, .kapply l0 args0, x, hx => by
      by_cases hn : l0.name = label
      · rw [show flattenLabel label (.kapply l0 args0) = flattenLabelL label args0 from by
          simp [flattenLabel, hn]] at hx
        exact flattenLabelL_not_label label args0 x hx
      · rw [show flattenLabel label (.kapply l0 args0) = [.kapply l0 args0] from by
          simp [flattenLabel, hn]] at hx
        rw [List.mem_singleton] at hx
        subst hx
        intro l args he
        cases he
        exact hn
  | label, .ktoken v s, x, hx => by
      rw [show flattenLabel label (.ktoken v s) = [.ktoken v s] from rfl,
        List.mem_singleton] at hx
      subst hx
      intro l args he
      cases he
  | label, .kvariable n so, x, hx => by
      rw [show flattenLabel label (.kvariable n so) = [.kvariable n so] from rfl,
        List.mem_singleton] at hx
      subst hx
      intro l args he
      cases he
  | label, .kas p a, x, hx => by
      rw [show flattenLabel label (.kas p a) = [.kas p a] from rfl,
        List.mem_singleton] at hx
      subst hx
      intro l args he
      cases he
  | label, .krewrite lh rh, x, hx => by
      rw [show flattenLabel label (.krewrite lh rh) = [.krewrite lh rh] from rfl,
        List.mem_singleton] at hx
      subst hx
      intro l args he
      cases he
  | label, .ksequence items, x, hx => by
      rw [show flattenLabel label (.ksequence items) = [.ksequence items] from rfl,
        List.mem_singleton] at hx
      subst hx
      intro l args he
      cases he

theorem flattenLabelL_not_label : ∀ (label : String) (ts : KList) (x : KInner),
    x ∈ flattenLabelL label ts → ∀ l args, x = KInner.kapply l args → l.name ≠ label
  | label, .cons h t, x, hx => by
      rw [show flattenLabelL label (.cons h t) =
        flattenLabel label h ++ flattenLabelL label t from rfl,
        List.mem_append] at hx
      cases hx with
      | inl hx => exact flattenLabel_not_label label h x hx
      | inr hx => exact flattenLabelL_not_label label t x hx
end

theorem mem_flatFold : ∀ (cs acc : List KInner) (x : KInner),
    x ∈ cs.foldl (fun acc c => acc ++ flattenLabel "#And" c) acc →
    x ∈ acc ∨ ∃ c ∈ cs, x ∈ flattenLabel "#And" c
  | [], _, _, hx => Or.inl hx
  | c :: cs, acc, x, hx => by
      rw [List.foldl_cons] at hx
      cases mem_flatFold cs (acc ++ flattenLabel "#And" c) x hx with
      | inl h =>
          rw [List.mem_append] at h
          cases h with
          | inl h => exact Or.inl h
          | inr h => exact Or.inr ⟨c, List.mem_cons_self c cs, h⟩
      | inr h =>
          obtain ⟨c', hc', hx'⟩ := h
          exact Or.inr ⟨c', List.mem_cons_of_mem c hc', hx'⟩

/-- Elements of `normalizeConstraints` come from flattening some input
constraint, are pairwise distinct, and are non-spurious. -/
theorem normalizeConstraints_spec (cs : List KInner) :
    (normalizeConstraints cs).Nodup ∧
    ∀ x ∈ normalizeConstraints cs, isSpuriousConstraint x = false ∧
      ∃ c ∈ cs, x ∈ flattenLabel "#And" c := by
  refine ⟨List.Nodup.filter _ (uniqueGo_nodup [] _), ?_⟩
  intro x hx
  have hsp := List.of_mem_filter hx
  have hmem := List.mem_of_mem_filter hx
  have hmem2 := uniqueGo_subset [] _ x hmem
  have hfold := mem_flatFold cs [] x hmem2
  refine ⟨by simpa using hsp, ?_⟩
  cases hfold with
  | inl h => cases h
  | inr h => exact h

/-! ### Claim C10 -/

/-- C10: every constructed `CTerm` either carries the bare `mlTop()` or
`mlBottom()` sentinel with an EMPTY constraint list — in particular
`new CTerm(mlTop(), [c])` silently discards every supplied constraint — or
carries a cell-application configuration with a constraint list that is
flattened over `#And`, deduplicated, spurious-free and sorted by the
serialization-based constraint sort key. -/
theorem C10_cterm_invariant (config : KInner) (cs : List KInner) (ct : CTerm)
    (h : mkCTerm config cs = .ok ct) :
    (∀ cs' : List KInner,
      mkCTerm (mlTop GENERATED_TOP_CELL) cs' =
        .ok ⟨mlTop GENERATED_TOP_CELL, []⟩ ∧
      mkCTerm (mlBottom GENERATED_TOP_CELL) cs' =
        .ok ⟨mlBottom GENERATED_TOP_CELL, []⟩) ∧
    ((ct.config = mlTop GENERATED_TOP_CELL ∧ ct.constraints = []) ∨
     (ct.config = mlBottom GENERATED_TOP_CELL ∧ ct.constraints = []) ∨
     (isCellConfig ct.config = true ∧
      ct.constraints = sortConstraints (normalizeConstraints cs) ∧
      List.Chain' (fun a b => keyLe a b = true) ct.constraints ∧
      ct.constraints.Nodup ∧
      (∀ c ∈ ct.constraints, isSpuriousConstraint c = false) ∧
      (∀ c ∈ ct.constraints, ∀ l args, c = KInner.kapply l args →
        l.name ≠ "#And"))) := by
  refine ⟨fun cs' => ⟨rfl, rfl⟩, ?_⟩
  unfold mkCTerm at h
  by_cases ht : isTopW config = true
  · rw [if_pos ht] at h
    have hct : ct = ⟨mlTop, []⟩ := (Except.ok.inj h).symm
    subst hct
    exact Or.inl ⟨rfl, rfl⟩
  · rw [if_neg ht] at h
    by_cases hb : isBottomW config = true
    · rw [if_pos hb] at h
      have hct : ct = ⟨mlBottom, []⟩ := (Except.ok.inj h).symm
      subst hct
      exact Or.inr (Or.inl ⟨rfl, rfl⟩)
    · rw [if_neg hb] at h
      by_cases hc : isCellConfig config = true
      · rw [if_pos hc] at h
        have hct : ct = ⟨config, sortConstraints (normalizeConstraints cs)⟩ :=
          (Except.ok.inj h).symm
        subst hct
        refine Or.inr (Or.inr ⟨hc, rfl, chain'_sortConstraints _, ?_, ?_, ?_⟩)
        · exact ((sortConstraints_perm _).nodup_iff).mpr
            (normalizeConstraints_spec cs).1
        · intro c hcm
          exact (((normalizeConstraints_spec cs).2 c
            ((sortConstraints_perm _).mem_iff.mp hcm)).1)
        · intro c hcm l args he
          obtain ⟨c', _, hfl⟩ := ((normalizeConstraints_spec cs).2 c
            ((sortConstraints_perm _).mem_iff.mp hcm)).2
          exact flattenLabel_not_label "#And" c' c hfl l args he
      · rw [if_neg hc] at h
        exact Except.noConfusion h

/-- C10 witness: a cell configuration `<k>(x)` with a duplicated, partly
spurious constraint list; the sentinel `mlTop()` discards the same
constraints. -/
theorem C10_cterm_invariant_witness :
    mkCTerm (KInner.kapply ⟨"<k>", []⟩ (.cons (.kvariable "x" none) .nil))
        [mlEqualsTrue (KInner.kvariable "b" (some BOOL)),
         mlEqualsTrue (KInner.kvariable "b" (some BOOL)),
         mlTop GENERATED_TOP_CELL] =
      .ok ⟨KInner.kapply ⟨"<k>", []⟩ (.cons (.kvariable "x" none) .nil),
        [mlEqualsTrue (KInner.kvariable "b" (some BOOL))]⟩ ∧
    mkCTerm (mlTop GENERATED_TOP_CELL)
        [mlEqualsTrue (KInner.kvariable "b" (some BOOL))] =
      .ok ⟨mlTop GENERATED_TOP_CELL, []⟩ ∧
    (((⟨KInner.kapply ⟨"<k>", []⟩ (.cons (.kvariable "x" none) .nil),
        [mlEqualsTrue (KInner.kvariable "b" (some BOOL))]⟩ : CTerm).config =
          mlTop GENERATED_TOP_CELL ∧
      (⟨KInner.kapply ⟨"<k>", []⟩ (.cons (.kvariable "x" none) .nil),
        [mlEqualsTrue (KInner.kvariable "b" (some BOOL))]⟩ : CTerm).constraints =
          []) ∨
    ((⟨KInner.kapply ⟨"<k>", []⟩ (.cons (.kvariable "x" none) .nil),
        [mlEqualsTrue (KInner.kvariable "b" (some BOOL))]⟩ : CTerm).config =
          mlBottom GENERATED_TOP_CELL ∧
      (⟨KInner.kapply ⟨"<k>", []⟩ (.cons (.kvariable "x" none) .nil),
        [mlEqualsTrue (KInner.kvariable "b" (some BOOL))]⟩ : CTerm).constraints =
          []) ∨
    (isCellConfig (⟨KInner.kapply ⟨"<k>", []⟩ (.cons (.kvariable "x" none) .nil),
        [mlEqualsTrue (KInner.kvariable "b" (some BOOL))]⟩ : CTerm).config = true ∧
      (⟨KInner.kapply ⟨"<k>", []⟩ (.cons (.kvariable "x" none) .nil),
        [mlEqualsTrue (KInner.kvariable "b" (some BOOL))]⟩ : CTerm).constraints =
        sortConstraints (normalizeConstraints
          [mlEqualsTrue (KInner.kvariable "b" (some BOOL)),
           mlEqualsTrue (KInner.kvariable "b" (some BOOL)),
           mlTop GENERATED_TOP_CELL]) ∧
      List.Chain' (fun a b => keyLe a b = true)
        (⟨KInner.kapply ⟨"<k>", []⟩ (.cons (.kvariable "x" none) .nil),
          [mlEqualsTrue (KInner.kvariable "b" (some BOOL))]⟩ : CTerm).constraints ∧
      (⟨KInner.kapply ⟨"<k>", []⟩ (.cons (.kvariable "x" none) .nil),
        [mlEqualsTrue (KInner.kvariable "b" (some BOOL))]⟩ : CTerm).constraints.Nodup ∧
      (∀ c ∈ (⟨KInner.kapply ⟨"<k>", []⟩ (.cons (.kvariable "x" none) .nil),
        [mlEqualsTrue (KInner.kvariable "b" (some BOOL))]⟩ : CTerm).constraints,
        isSpuriousConstraint c = false) ∧
      (∀ c ∈ (⟨KInner.kapply ⟨"<k>", []⟩ (.cons (.kvariable "x" none) .nil),
        [mlEqualsTrue (KInner.kvariable "b" (some BOOL))]⟩ : CTerm).constraints,
        ∀ l args, c = KInner.kapply l args → l.name ≠ "#And"))) := by
  refine ⟨rfl, rfl, ?_⟩
  exact (C10_cterm_invariant
    (KInner.kapply ⟨"<k>", []⟩ (.cons (.kvariable "x" none) .nil))
    [mlEqualsTrue (KInner.kvariable "b" (some BOOL)),
     mlEqualsTrue (KInner.kvariable "b" (some BOOL)),
     mlTop GENERATED_TOP_CELL]
    ⟨KInner.kapply ⟨"<k>", []⟩ (.cons (.kvariable "x" none) .nil),
      [mlEqualsTrue (KInner.kvariable "b" (some BOOL))]⟩
    (by rfl)).2

/-! ### `topDown`, `pushDownRewrites`, `antiUnify`
(`src/kast/outer_syntax.ts`, `src/kast/manip.ts`, `cterm.ts`) -/

/-- Models `topDown`.  The source work-stack mistranslates Python negative
indexing: with `terms = []` it computes `idx = -currentTerm.terms.length`
and, for any non-leaf root, reads `currentTerm.terms[idx] = undefined`,
faulting with a `TypeError` on the following iteration.  A leaf root
(`terms` empty) takes `idx = 0` immediately and returns
`f(term).letTerms([])`.  So `topDown(f, t)` returns `f(t).letTerms([])`
when `f(t)` is a leaf and throws otherwise; `Except.error` models the
fault. -/
def topDownE (f : KInner → KInner) (t : KInner) : Except String KInner :=
  match KInner.terms (f t) with
  | .nil => .ok (KInner.letTerms (f t) .nil)
  | .cons _ _ => .error "TypeError: Cannot read properties of undefined"

/-- Pairwise rewrites of two equal-length argument lists
(`lhs.args.map((leftArg, i) => new KRewrite(leftArg, rhs.args[i]))`). -/
def zipRewriteL : KList → KList → KList
  | .cons a as, .cons b bs => .cons (.krewrite a b) (zipRewriteL as bs)
  | _, _ => .nil

/-- Models `pushDownRewritesInner`: push a rewrite toward the leaves, one
guard at a time in source order (`===` comparisons are structural equality
per this file's convention; `new KSequence(...)` flattens one level).  The
fuel bounds the recursion depth; `sizeK` of the node is always enough. -/
def pdrInner : Nat → KInner → KInner
  | 0, k => k
  | fuel + 1, k =>
      match k with
      | .krewrite lhs rhs =>
          if lhs = rhs then lhs
          else
            match lhs, rhs with
            | .kvariable n1 so1, .kvariable n2 _ =>
                if n1 = n2 then .kvariable n1 so1 else .krewrite lhs rhs
            | .kapply l1 args1, .kapply l2 args2 =>
                if l1.name = l2.name ∧ args1.length = args2.length then
                  .kapply l1 (zipRewriteL args1 args2)
                else .krewrite lhs rhs
            | .ksequence items1, .ksequence items2 =>
                if 0 < items1.length ∧ 0 < items2.length then
                  if items1.length = 1 ∧ items2.length = 1 then
                    match items1.get? 0, items2.get? 0 with
                    | some h1, some h2 => pdrInner fuel (.krewrite h1 h2)
                    | _, _ => .krewrite lhs rhs
                  else if items1.get? 0 = items2.get? 0 then
                    match items1.get? 0 with
                    | some h1 =>
                        mkKSequence (.cons h1 (.cons
                          (pdrInner fuel (.krewrite
                            (mkKSequence (KList.drop 1 items1))
                            (mkKSequence (KList.drop 1 items2)))) .nil))
                    | none => .krewrite lhs rhs
                  else if items1.getLast? = items2.getLast? then
                    match items1.getLast? with
                    | some last1 =>
                        mkKSequence (.cons
                          (pdrInner fuel (.krewrite
                            (mkKSequence (KList.take (items1.length - 1) items1))
                            (mkKSequence (KList.take (items2.length - 1) items2))))
                          (.cons last1 .nil))
                    | none => .krewrite lhs rhs
                  else .krewrite lhs rhs
                else .krewrite lhs rhs
            | .ksequence items1, .kvariable n2 so2 =>
                if 0 < items1.length ∧
                    items1.getLast? = some (.kvariable n2 so2) then
                  mkKSequence (.cons
                    (.krewrite (mkKSequence (KList.take (items1.length - 1) items1))
                      (mkKSequence .nil))
                    (.cons (.kvariable n2 so2) .nil))
                else .krewrite lhs rhs
            | _, _ => .krewrite lhs rhs
      | _ => k

/-- Models `pushDownRewrites`: `topDown` over `pushDownRewritesInner` —
which, through the `topDown` fault, means the inner function is applied
once at the root and the result must already be a leaf. -/
def pushDownRewrites (kast : KInner) : Except String KInner :=
  topDownE (fun k => pdrInner (sizeK k) k) kast

/-- Stand-in for `hashStr` (the sha256 hex digest) in the abstraction
variable's name.  No reachable execution of `antiUnify` evaluates it: a
surviving rewrite node means the minimized rewrite was not a leaf, so
`topDown` already faulted; any function of the serialized term yields the
same `antiUnify` on every non-faulting input. -/
def hashStrM (s : String) : String := s

/-- Models `abstractTermSafely(kast, "V", sort)` (no existing-names set). -/
def abstractTermSafely (kast : KInner) (sort : Option KSort) : KInner :=
  .kvariable ("V_" ++ (hashStrM (termString kast)).take 8) sort

/-- The per-node abstraction of `antiUnify` (no `KDefinition` is supplied,
so the sort is `null`). -/
def rewritesToAbstractions (k : KInner) : KInner :=
  match k with
  | .krewrite _ _ => abstractTermSafely k none
  | _ => k

/-- Models `antiUnify(state1, state2)` (without the optional
`KDefinition`): minimize the rewrite `state1 => state2`, abstract the
surviving rewrites, match the result against both states, and throw if
either match returns `null`. -/
def antiUnify (s1 s2 : KInner) : Except String (KInner × Subst × Subst) :=
  match pushDownRewrites (.krewrite s1 s2) with
  | .error e => .error e
  | .ok minimizedRewrite =>
      let abstractedState := bottomUp rewritesToAbstractions minimizedRewrite
      match matchK abstractedState s1, matchK abstractedState s2 with
      | .ok (some subst1), .ok (some subst2) => .ok (abstractedState, subst1, subst2)
      | .error e, _ => .error e
      | _, .error e => .error e
      | _, _ => .error "Anti-unification failed to produce a more general state!"

/-! ### Lemmas about leaves, matching and the pushed-down rewrite -/

/-- What a leaf can be and produce when its `match` returns a
substitution. -/
theorem leafMatchVar : ∀ (L T : KInner) (S : Subst),
    KInner.terms L = .nil → matchK L T = .ok (some S) →
    (∃ n so, L = .kvariable n so ∧ S = [(n, T)]) ∨
    (∃ v s s', L = .ktoken v s ∧ T = .ktoken v s' ∧ S = []) ∨
    (∃ l l', L = .kapply l .nil ∧ T = .kapply l' .nil ∧ l'.name = l.name ∧ S = []) ∨
    (L = .ksequence .nil ∧ T = .ksequence .nil ∧ S = [])
  | .kvariable n so, T, S, _, h => by
      have hS : S = [(n, T)] := (Option.some.inj (Except.ok.inj h)).symm
      exact Or.inl ⟨n, so, rfl, hS⟩
  | .ktoken v s, T, S, _, h => by
      cases T with
      | ktoken v' s' =>
          have h2 : (if v' = v then (.ok (some []) : Except String (Option Subst))
              else .ok none) = .ok (some S) := h
          by_cases hv : v' = v
          · rw [if_pos hv] at h2
            have hS : S = [] := (Option.some.inj (Except.ok.inj h2)).symm
            exact Or.inr (Or.inl ⟨v, s, s', rfl, by rw [hv], hS⟩)
          · rw [if_neg hv] at h2
            exact (okNone_ne h2).elim
      | kvariable n' so' => exact (okNone_ne h).elim
      | kapply l' args' => exact (okNone_ne h).elim
      | kas p' a' => exact (okNone_ne h).elim
      | krewrite l' r' => exact (okNone_ne h).elim
      | ksequence items' => exact (okNone_ne h).elim
  | .kapply l args, T, S, hter, h => by
      have hargs : args = .nil := hter
      subst hargs
      cases T with
      | kapply l' args' =>
          cases args' with
          | nil =>
              have h2 : (if l'.name = l.name && KList.length .nil = KList.length .nil then
                  matchKL .nil .nil >>= (fun ms => pure (combineMatches ms))
                else .ok none) = .ok (some S) := h
              by_cases hn : l'.name = l.name
              · rw [if_pos (by simp [hn])] at h2
                have h3 : (Except.ok (some ([] : Subst)) :
                    Except String (Option Subst)) = .ok (some S) := h2
                have hS : S = [] := (Option.some.inj (Except.ok.inj h3)).symm
                exact Or.inr (Or.inr (Or.inl ⟨l, l', rfl, rfl, hn, hS⟩))
              · rw [if_neg (by simp [hn])] at h2
                exact (okNone_ne h2).elim
          | cons a' as' =>
              have h2 : (if l'.name = l.name &&
                  KList.length (.cons a' as') = KList.length .nil then
                  matchKL .nil (.cons a' as') >>= (fun ms => pure (combineMatches ms))
                else .ok none) = .ok (some S) := h
              rw [if_neg (by simp [KList.length_cons, KList.length])] at h2
              exact (okNone_ne h2).elim
      | ktoken v' s' => exact (okNone_ne h).elim
      | kvariable n' so' => exact (okNone_ne h).elim
      | kas p' a' => exact (okNone_ne h).elim
      | krewrite l' r' => exact (okNone_ne h).elim
      | ksequence items' => exact (okNone_ne h).elim
  | .kas p a, T, S, hter, _ => by
      exact KList.noConfusion hter
  | .krewrite lh rh, T, S, hter, _ => by
      exact KList.noConfusion hter
  | .ksequence items, T, S, hter, h => by
      have hitems : items = .nil := hter
      subst hitems
      cases T with
      | ksequence items' =>
          cases items' with
          | nil =>
              have h2 : (Except.ok (some ([] : Subst)) :
                  Except String (Option Subst)) = .ok (some S) := h
              have hS : S = [] := (Option.some.inj (Except.ok.inj h2)).symm
              exact Or.inr (Or.inr (Or.inr ⟨rfl, rfl, hS⟩))
          | cons a' as' =>
              have h2 : (if KList.length (.cons a' as') = KList.length .nil then
                  matchKL .nil (.cons a' as') >>= (fun ms => pure (combineMatches ms))
                else
                  if 0 < KList.length (.nil : KList) &&
                      KList.length (.nil : KList) < KList.length (.cons a' as') then
                    match KList.getLast? (.nil : KList) with
                    | some (.kvariable vn _) =>
                        if seqVarReuse .nil (KList.length (.nil : KList) - 1) vn then
                          .ok none
                        else
                          matchSeqLoop .nil (.cons a' as')
                            (KList.length (.nil : KList) - 1)
                            (some [(vn, mkKSequence (KList.drop
                              (KList.length (.nil : KList) - 1) (.cons a' as')))])
                    | _ => .ok none
                  else .ok none) = .ok (some S) := h
              rw [if_neg (by simp [KList.length_cons, KList.length])] at h2
              rw [if_neg (by simp [KList.length])] at h2
              exact (okNone_ne h2).elim
      | ktoken v' s' => exact (okNone_ne h).elim
      | kvariable n' so' => exact (okNone_ne h).elim
      | kapply l' args' => exact (okNone_ne h).elim
      | kas p' a' => exact (okNone_ne h).elim
      | krewrite l' r' => exact (okNone_ne h).elim

/-- A leaf is untouched by `letTerms` with no replacement children. -/
theorem letTerms_leaf : ∀ t : KInner, KInner.terms t = .nil →
    KInner.letTerms t .nil = t
  | .ktoken _ _, _ => rfl
  | .kvariable _ _, _ => rfl
  | .kapply l args, hter => by
      have : args = .nil := hter
      subst this
      rfl
  | .kas _ _, hter => KList.noConfusion hter
  | .krewrite _ _, hter => KList.noConfusion hter
  | .ksequence items, hter => by
      have : items = .nil := hter
      subst this
      rfl

/-- A leaf is a fixed point of the rewrite-abstraction pass (a leaf is
never a `KRewrite`). -/
theorem leafFix (t : KInner) (hter : KInner.terms t = .nil) :
    bottomUp rewritesToAbstractions t = t := by
  rw [bottomUp_eq, bottomUpNaive_unfold, hter]
  show rewritesToAbstractions (KInner.letTerms t .nil) = t
  rw [letTerms_leaf t hter]
  cases t with
  | krewrite l r => exact KList.noConfusion hter
  | ktoken v s => rfl
  | kvariable n so => rfl
  | kapply l args => rfl
  | kas p a => exact KList.noConfusion hter
  | ksequence items => rfl

/-- The shapes on which the single root application of
`pushDownRewritesInner` can produce a leaf (everything else leaves a
`KRewrite` or another non-leaf behind, so `topDown` faults). -/
theorem pdrTop_cases (C1 C2 : KInner) (m : Nat)
    (hter : KInner.terms (pdrInner (m + 1) (.krewrite C1 C2)) = .nil) :
    (C1 = C2 ∧ pdrInner (m + 1) (.krewrite C1 C2) = C1) ∨
    (∃ n so1 so2, C1 = .kvariable n so1 ∧ C2 = .kvariable n so2 ∧
      pdrInner (m + 1) (.krewrite C1 C2) = C1) ∨
    (∃ l1 l2, C1 = .kapply l1 .nil ∧ C2 = .kapply l2 .nil ∧ l1.name = l2.name ∧
      pdrInner (m + 1) (.krewrite C1 C2) = C1) ∨
    (∃ x1 x2, C1 = .ksequence (.cons x1 .nil) ∧ C2 = .ksequence (.cons x2 .nil) ∧
      pdrInner (m + 1) (.krewrite C1 C2) = pdrInner m (.krewrite x1 x2)) ∨
    (pdrInner (m + 1) (.krewrite C1 C2) = .ksequence .nil ∧
      ∃ a t, C1 = .ksequence (.cons a t)) := by
  cases C1 <;> cases C2 <;>
    first
    | exact KList.noConfusion hter
    | skip
  case ktoken.ktoken v1 s1 v2 s2 =>
      by_cases hC : (KInner.ktoken v1 s1 : KInner) = .ktoken v2 s2
      · refine Or.inl ⟨hC, ?_⟩
        simp only [pdrInner]
        rw [if_pos hC]
      · exfalso
        simp only [pdrInner] at hter
        rw [if_neg hC] at hter
        exact KList.noConfusion hter
  case kvariable.kvariable n1 so1 n2 so2 =>
      by_cases hC : (KInner.kvariable n1 so1 : KInner) = .kvariable n2 so2
      · refine Or.inl ⟨hC, ?_⟩
        simp only [pdrInner]
        rw [if_pos hC]
      · by_cases hn : n1 = n2
        · refine Or.inr (Or.inl ⟨n1, so1, so2, rfl, by rw [hn], ?_⟩)
          simp only [pdrInner]
          rw [if_neg hC, if_pos hn]
        · exfalso
          simp only [pdrInner] at hter
          rw [if_neg hC, if_neg hn] at hter
          exact KList.noConfusion hter
  case kapply.kapply l1 args1 l2 args2 =>
      by_cases hC : (KInner.kapply l1 args1 : KInner) = .kapply l2 args2
      · refine Or.inl ⟨hC, ?_⟩
        simp only [pdrInner]
        rw [if_pos hC]
      · by_cases hg : l1.name = l2.name ∧ args1.length = args2.length
        · simp only [pdrInner] at hter
          rw [if_neg hC, if_pos hg] at hter
          cases args1 with
          | nil =>
              cases args2 with
              | nil =>
                  refine Or.inr (Or.inr (Or.inl ⟨l1, l2, rfl, rfl, hg.1, ?_⟩))
                  show (if (KInner.kapply l1 .nil : KInner) = .kapply l2 .nil then
                      (KInner.kapply l1 .nil : KInner)
                    else if l1.name = l2.name ∧
                        (KList.nil : KList).length = (KList.nil : KList).length then
                      .kapply l1 (zipRewriteL .nil .nil)
                    else .krewrite (.kapply l1 .nil) (.kapply l2 .nil)) =
                    .kapply l1 .nil
                  rw [if_neg hC, if_pos hg]
                  rfl
              | cons b bs =>
                  exfalso
                  have := hg.2
                  rw [KList.length_cons] at this
                  simp [KList.length] at this
                  try omega
          | cons a as =>
              cases args2 with
              | nil =>
                  exfalso
                  have := hg.2
                  rw [KList.length_cons] at this
                  simp [KList.length] at this
                  try omega
              | cons b bs =>
                  exfalso
                  exact KList.noConfusion hter
        · exfalso
          simp only [pdrInner] at hter
          rw [if_neg hC, if_neg hg] at hter
          exact KList.noConfusion hter
  case kas.kas p1 a1 p2 a2 =>
      exfalso
      by_cases hC : (KInner.kas p1 a1 : KInner) = .kas p2 a2
      · simp only [pdrInner] at hter
        rw [if_pos hC] at hter
        exact KList.noConfusion hter
      · simp only [pdrInner] at hter
        rw [if_neg hC] at hter
        exact KList.noConfusion hter
  case krewrite.krewrite l1 r1 l2 r2 =>
      exfalso
      by_cases hC : (KInner.krewrite l1 r1 : KInner) = .krewrite l2 r2
      · simp only [pdrInner] at hter
        rw [if_pos hC] at hter
        exact KList.noConfusion hter
      · simp only [pdrInner] at hter
        rw [if_neg hC] at hter
        exact KList.noConfusion hter
  case ksequence.kvariable items1 n2 so2 =>
      exfalso
      by_cases hg : 0 < items1.length ∧ items1.getLast? = some (.kvariable n2 so2)
      · simp only [pdrInner] at hter
        rw [if_neg (by intro he; exact KInner.noConfusion he), if_pos hg] at hter
        exact KList.noConfusion hter
      · simp only [pdrInner] at hter
        rw [if_neg (by intro he; exact KInner.noConfusion he), if_neg hg] at hter
        exact KList.noConfusion hter
  case ksequence.ksequence items1 items2 =>
      by_cases hC : (KInner.ksequence items1 : KInner) = .ksequence items2
      · refine Or.inl ⟨hC, ?_⟩
        simp only [pdrInner]
        rw [if_pos hC]
      · by_cases hg : 0 < items1.length ∧ 0 < items2.length
        · by_cases h11 : items1.length = 1 ∧ items2.length = 1
          · obtain ⟨x1, hx1⟩ : ∃ x, items1 = KList.cons x .nil := by
              cases items1 with
              | nil => exact absurd h11.1 (by simp [KList.length])
              | cons a t =>
                  refine ⟨a, ?_⟩
                  have hl := h11.1
                  rw [KList.length_cons] at hl
                  have : t.length = 0 := by omega
                  rw [(KList.length_zero_iff t).mp this]
            obtain ⟨x2, hx2⟩ : ∃ x, items2 = KList.cons x .nil := by
              cases items2 with
              | nil => exact absurd h11.2 (by simp [KList.length])
              | cons a t =>
                  refine ⟨a, ?_⟩
                  have hl := h11.2
                  rw [KList.length_cons] at hl
                  have : t.length = 0 := by omega
                  rw [(KList.length_zero_iff t).mp this]
            subst hx1
            subst hx2
            refine Or.inr (Or.inr (Or.inr (Or.inl ⟨x1, x2, rfl, rfl, ?_⟩)))
            simp only [pdrInner]
            rw [if_neg hC]
            rfl
          · cases hi1 : items1 with
            | nil => exact absurd (hi1 ▸ hg.1) (by simp [KList.length])
            | cons a1 t1 =>
                subst hi1
                by_cases hH : (KList.cons a1 t1).get? 0 = items2.get? 0
                · refine Or.inr (Or.inr (Or.inr (Or.inr ⟨?_, a1, t1, rfl⟩)))
                  simp only [pdrInner] at hter ⊢
                  rw [if_neg hC, if_pos hg, if_neg h11, if_pos hH] at hter ⊢
                  have hter2 : flattenOnceL (.cons a1 (.cons
                      (pdrInner m (.krewrite
                        (mkKSequence (KList.drop 1 (.cons a1 t1)))
                        (mkKSequence (KList.drop 1 items2)))) .nil)) = KList.nil := hter
                  show KInner.ksequence (flattenOnceL (.cons a1 (.cons
                    (pdrInner m (.krewrite
                      (mkKSequence (KList.drop 1 (.cons a1 t1)))
                      (mkKSequence (KList.drop 1 items2)))) .nil))) = _
                  rw [hter2]
                · by_cases hT : (KList.cons a1 t1).getLast? = items2.getLast?
                  · cases hlast : (KList.cons a1 t1).getLast? with
                    | none =>
                        exfalso
                        simp only [pdrInner] at hter
                        rw [if_neg hC, if_pos hg, if_neg h11, if_neg hH,
                          if_pos hT, hlast] at hter
                        exact KList.noConfusion hter
                    | some last1 =>
                        refine Or.inr (Or.inr (Or.inr (Or.inr ⟨?_, a1, t1, rfl⟩)))
                        simp only [pdrInner] at hter ⊢
                        rw [if_neg hC, if_pos hg, if_neg h11, if_neg hH,
                          if_pos hT, hlast] at hter ⊢
                        have hter2 : flattenOnceL (.cons
                            (pdrInner m (.krewrite
                              (mkKSequence (KList.take ((KList.cons a1 t1).length - 1)
                                (.cons a1 t1)))
                              (mkKSequence (KList.take (items2.length - 1) items2))))
                            (.cons last1 .nil)) = KList.nil := hter
                        show KInner.ksequence (flattenOnceL (.cons
                          (pdrInner m (.krewrite
                            (mkKSequence (KList.take ((KList.cons a1 t1).length - 1)
                              (.cons a1 t1)))
                            (mkKSequence (KList.take (items2.length - 1) items2))))
                          (.cons last1 .nil))) = _
                        rw [hter2]
                  · exfalso
                    simp only [pdrInner] at hter
                    rw [if_neg hC, if_pos hg, if_neg h11, if_neg hH, if_neg hT] at hter
                    exact KList.noConfusion hter
        · exfalso
          simp only [pdrInner] at hter
          rw [if_neg hC, if_neg hg] at hter
          exact KList.noConfusion hter

/-! ### Claim C2 -/

/-- C2 (amended): on the inputs where `antiUnify` actually returns — both
states equal and a leaf, two variables of the same name, two zero-arity
applications of the same label name, or singleton sequences reducing to one
of these — the returned triple is sound provided equally named zero-arity
application states also agree on their label parameters: `S1.apply(G)`
equals `C1` and `S2.apply(G)` equals `C2`.  The original claim's
unconditional generality is refuted by `C2_counterexample`: label
parameters break it, and on virtually all other inputs `antiUnify` raises —
`topDown` faults on every non-leaf minimized rewrite, so the internal
generality check is far from never firing. -/
theorem C2_antiUnify_soundness (C1 C2 G : KInner) (S1 S2 : Subst)
    (hparams : ∀ l1 l2, C1 = KInner.kapply l1 .nil → C2 = KInner.kapply l2 .nil →
      l1.params = l2.params)
    (h : antiUnify C1 C2 = .ok (G, S1, S2)) :
    Subst.apply S1 G = C1 ∧ Subst.apply S2 G = C2 := by
  simp only [antiUnify] at h
  cases hpd : pushDownRewrites (.krewrite C1 C2) with
  | error e =>
      rw [hpd] at h
      exact Except.noConfusion h
  | ok L0 =>
      rw [hpd] at h
      simp only at h
      simp only [pushDownRewrites, topDownE] at hpd
      have hsz : sizeK (.krewrite C1 C2) = (sizeK C1 + sizeK C2) + 1 := by
        show 1 + sizeK C1 + sizeK C2 = _
        omega
      rw [hsz] at hpd
      cases hter0 : KInner.terms
          (pdrInner ((sizeK C1 + sizeK C2) + 1) (.krewrite C1 C2)) with
      | cons a b =>
          rw [hter0] at hpd
          exact Except.noConfusion hpd
      | nil =>
          rw [hter0] at hpd
          have hL0 : L0 = pdrInner ((sizeK C1 + sizeK C2) + 1) (.krewrite C1 C2) := by
            have := Except.ok.inj hpd
            rw [← this, letTerms_leaf _ hter0]
          subst hL0
          have hterL := hter0
          rw [leafFix _ hterL] at h
          cases hm1 : matchK (pdrInner ((sizeK C1 + sizeK C2) + 1)
              (.krewrite C1 C2)) C1 with
          | error e1 =>
              rw [hm1] at h
              cases hm2 : matchK (pdrInner ((sizeK C1 + sizeK C2) + 1)
                  (.krewrite C1 C2)) C2 <;> rw [hm2] at h <;>
                exact Except.noConfusion h
          | ok o1 =>
              rw [hm1] at h
              cases hm2 : matchK (pdrInner ((sizeK C1 + sizeK C2) + 1)
                  (.krewrite C1 C2)) C2 with
              | error e2 =>
                  rw [hm2] at h
                  cases o1 <;> exact Except.noConfusion h
              | ok o2 =>
                  rw [hm2] at h
                  cases o1 with
                  | none => cases o2 <;> exact Except.noConfusion h
                  | some s1 =>
                      cases o2 with
                      | none => exact Except.noConfusion h
                      | some s2 =>
                          have h4 := Except.ok.inj h
                          simp only [Prod.mk.injEq] at h4
                          obtain ⟨hG, hS1, hS2⟩ := h4
                          subst hG
                          subst hS1
                          subst hS2
                          clear h hpd
                          rcases pdrTop_cases C1 C2 (sizeK C1 + sizeK C2) hter0 with
                            ⟨hC, hL⟩ | ⟨n, so1, so2, hv1, hv2, hL⟩ |
                            ⟨l1, l2, ha1, ha2, hname, hL⟩ |
                            ⟨x1, x2, hs1, hs2, hL⟩ | ⟨hL, a, t, hs1⟩
                          · -- both states equal; the leaf is that state
                            subst hC
                            have hSeq : s1 = s2 := by
                              have := hm1.symm.trans hm2
                              exact Option.some.inj (Except.ok.inj this)
                            subst hSeq
                            rw [hL] at hm1 hterL ⊢
                            refine ⟨?_, ?_⟩ <;>
                              · rcases leafMatchVar C1 C1 s1 hterL hm1 with
                                  ⟨n, so, hv, hS⟩ | ⟨v, s, s', ht, _, hS⟩ |
                                  ⟨l, l', ha, _, _, hS⟩ | ⟨hsq, _, hS⟩
                                · subst hS
                                  rw [hv, Subst.apply_eq, applyN_kvariable,
                                    Subst.get_singleton, if_pos rfl]
                                · subst hS
                                  rw [ht, Subst.apply_eq, applyN_ktoken, ← ht]
                                · subst hS
                                  rw [ha, Subst.apply_eq, applyN_kapply, bNL_nil, ← ha]
                                · subst hS
                                  rw [hsq, Subst.apply_eq, applyN_ksequence, bNL_nil]
                                  rfl
                          · -- two variables of the same name
                            subst hv1
                            subst hv2
                            rw [hL] at hm1 hm2 ⊢
                            have hS1 : s1 = [(n, KInner.kvariable n so1)] := by
                              have h1' : (Except.ok (some [(n, KInner.kvariable n so1)]) :
                                  Except String (Option Subst)) = .ok (some s1) := hm1
                              exact (Option.some.inj (Except.ok.inj h1')).symm
                            have hS2 : s2 = [(n, KInner.kvariable n so2)] := by
                              have h2' : (Except.ok (some [(n, KInner.kvariable n so2)]) :
                                  Except String (Option Subst)) = .ok (some s2) := hm2
                              exact (Option.some.inj (Except.ok.inj h2')).symm
                            subst hS1
                            subst hS2
                            constructor <;>
                              rw [Subst.apply_eq, applyN_kvariable,
                                Subst.get_singleton, if_pos rfl]
                          · -- two zero-arity applications of the same name
                            have hlab : l1 = l2 := by
                              have hp := hparams l1 l2 ha1 ha2
                              cases l1
                              cases l2
                              simp_all
                            subst ha1
                            subst ha2
                            rw [hL] at hm1 hm2 ⊢
                            have hS1 : s1 = [] := by
                              have h2 : (if l1.name = l1.name &&
                                  (KList.nil : KList).length = (KList.nil : KList).length
                                  then matchKL .nil .nil >>=
                                    (fun ms => pure (combineMatches ms))
                                  else .ok none) = .ok (some s1) := hm1
                              rw [if_pos (by simp)] at h2
                              have h3 : (Except.ok (some ([] : Subst)) :
                                  Except String (Option Subst)) = .ok (some s1) := h2
                              exact (Option.some.inj (Except.ok.inj h3)).symm
                            have hS2 : s2 = [] := by
                              have h2 : (if l2.name = l1.name &&
                                  (KList.nil : KList).length = (KList.nil : KList).length
                                  then matchKL .nil .nil >>=
                                    (fun ms => pure (combineMatches ms))
                                  else .ok none) = .ok (some s2) := hm2
                              rw [if_pos (by simp [hname])] at h2
                              have h3 : (Except.ok (some ([] : Subst)) :
                                  Except String (Option Subst)) = .ok (some s2) := h2
                              exact (Option.some.inj (Except.ok.inj h3)).symm
                            subst hS1
                            subst hS2
                            rw [hlab]
                            constructor <;>
                              rw [Subst.apply_eq, applyN_kapply, bNL_nil]
                          · -- singleton sequences: the leaf must be a variable
                            subst hs1
                            subst hs2
                            rw [hL] at hm1 hm2 hterL ⊢
                            rcases leafMatchVar _ _ s1 hterL hm1 with
                              ⟨n, so, hv, hS⟩ | ⟨v, s, s', _, ht, _⟩ |
                              ⟨l, l', _, ha, _, _⟩ | ⟨_, hsq, _⟩
                            · subst hS
                              rw [hv] at hm2 ⊢
                              have hS2 : s2 = [(n, KInner.ksequence (.cons x2 .nil))] := by
                                have h2' : (Except.ok
                                    (some [(n, KInner.ksequence (.cons x2 .nil))]) :
                                    Except String (Option Subst)) = .ok (some s2) := hm2
                                exact (Option.some.inj (Except.ok.inj h2')).symm
                              subst hS2
                              constructor <;>
                                rw [Subst.apply_eq, applyN_kvariable,
                                  Subst.get_singleton, if_pos rfl]
                            · exact KInner.noConfusion ht
                            · exact KInner.noConfusion ha
                            · have := KInner.ksequence.inj hsq
                              exact KList.noConfusion this
                          · -- an empty-sequence leaf cannot match a nonempty state
                            exfalso
                            subst hs1
                            rw [hL] at hm1 hterL
                            rcases leafMatchVar _ _ s1 hterL hm1 with
                              ⟨n, so, hv, _⟩ | ⟨v, s, s', ht, _, _⟩ |
                              ⟨l, l', ha, _, _, _⟩ | ⟨_, hsq, _⟩
                            · exact KInner.noConfusion hv
                            · exact KInner.noConfusion ht
                            · exact KInner.noConfusion ha
                            · have := KInner.ksequence.inj hsq
                              exact KList.noConfusion this

/-- C2, refuting unconditional generality and the never-raising claim: on
`mlTop(GeneratedTopCell)` vs `mlTop(Bool)` — zero-arity applications of the
same label name with different parameters — `antiUnify` returns the triple
`(mlTop(GeneratedTopCell), {}, {})`, and applying the empty substitution to
the generalized state does NOT recover the second configuration; and on the
pair `f(a)` vs `f(b)` the minimized rewrite `f(a => b)` is not a leaf, so
the mistranslated `topDown` work-stack faults with a `TypeError` instead of
generalizing. -/
theorem C2_counterexample :
    antiUnify (mlTop GENERATED_TOP_CELL) (mlTop BOOL) =
      .ok (mlTop GENERATED_TOP_CELL, [], []) ∧
    Subst.apply [] (mlTop GENERATED_TOP_CELL) ≠ mlTop BOOL ∧
    antiUnify (KInner.kapply ⟨"f", []⟩ (.cons (.ktoken "a" ⟨"S"⟩) .nil))
        (KInner.kapply ⟨"f", []⟩ (.cons (.ktoken "b" ⟨"S"⟩) .nil)) =
      .error "TypeError: Cannot read properties of undefined" := by
  refine ⟨rfl, ?_, rfl⟩
  decide

/-- C2 witness: anti-unifying two same-named variables of different sorts
returns a sound triple; every hypothesis of `C2_antiUnify_soundness` is
discharged at this input. -/
theorem C2_antiUnify_soundness_witness :
    (∀ l1 l2 : KLabel, (KInner.kvariable "x" none : KInner) = .kapply l1 .nil →
      (KInner.kvariable "x" (some BOOL) : KInner) = .kapply l2 .nil →
      l1.params = l2.params) ∧
    antiUnify (KInner.kvariable "x" none) (KInner.kvariable "x" (some BOOL)) =
      .ok (KInner.kvariable "x" none,
        [("x", KInner.kvariable "x" none)],
        [("x", KInner.kvariable "x" (some BOOL))]) ∧
    Subst.apply [("x", KInner.kvariable "x" none)] (KInner.kvariable "x" none) =
      KInner.kvariable "x" none ∧
    Subst.apply [("x", KInner.kvariable "x" (some BOOL))] (KInner.kvariable "x" none) =
      KInner.kvariable "x" (some BOOL) := by
  refine ⟨fun l1 l2 h1 _ => KInner.noConfusion h1, rfl, ?_⟩
  exact C2_antiUnify_soundness (KInner.kvariable "x" none)
    (KInner.kvariable "x" (some BOOL)) (KInner.kvariable "x" none)
    [("x", KInner.kvariable "x" none)] [("x", KInner.kvariable "x" (some BOOL))]
    (fun l1 l2 h1 _ => KInner.noConfusion h1) rfl
